import Mathlib

/-!
Verification of the cooperative-multitasking core (cotask / task_share)
against its natural-language specification.

The Python source is shallowly embedded: each class becomes a structure,
each method a pure function on that structure.  Python integers are
modelled as Lean Int (index and count fields, which the source keeps
non-negative, as Nat); fallible operations return Option, with `none`
standing for an operation that raises or busy-waits forever in the
single-threaded semantics.  Interrupt masking (pyb.disable_irq /
pyb.enable_irq) has no observable effect in the sequential model and is
elided; gc.collect likewise.
-/

/-! ## Queue (task_share.py, class Queue) -/

/-- State of a `Queue` object from task_share.py.  Field names follow the
source attributes `_size`, `_overwrite`, `_buffer`, `_rd_idx`, `_wr_idx`,
`_num_items`, `_max_full`.  The element type code only affects which
values fit in the backing array; elements are modelled as unbounded Int. -/
structure QueueState where
  size : Nat
  overwrite : Bool
  buffer : List Int
  rd_idx : Nat
  wr_idx : Nat
  num_items : Nat
  max_full : Nat
  deriving Repr, DecidableEq

namespace QueueState

/-- Queue.full: `self._num_items >= self._size`. -/
def full (q : QueueState) : Bool := decide (q.num_items ≥ q.size)

/-- Queue.empty: `self._num_items <= 0` (num_items is never negative). -/
def empty (q : QueueState) : Bool := decide (q.num_items ≤ 0)

/-- Queue.any: `self._num_items > 0`. -/
def any (q : QueueState) : Bool := decide (q.num_items > 0)

/-- Queue.num_in: returns `self._num_items`. -/
def num_in (q : QueueState) : Nat := q.num_items

/-- Queue.clear: resets `_rd_idx`, `_wr_idx`, `_num_items`, `_max_full`
all to zero (task_share.py lines 110-114). -/
def clear (q : QueueState) : QueueState :=
  { q with rd_idx := 0, wr_idx := 0, num_items := 0, max_full := 0 }

/-- The unconditional write body of Queue.put (task_share.py lines 59-67):
store at the write index, advance it with wraparound, bump the occupancy
clamped at capacity, and update the high-water-mark. -/
def putWrite (q : QueueState) (item : Int) : QueueState :=
  let buffer' := q.buffer.set q.wr_idx item
  let w1 := q.wr_idx + 1
  let wr' := if w1 ≥ q.size then 0 else w1
  let n1 := q.num_items + 1
  let num' := if n1 ≥ q.size then q.size else n1
  let max' := if num' > q.max_full then num' else q.max_full
  { q with buffer := buffer', wr_idx := wr', num_items := num', max_full := max' }

/-- Queue.put.  If full: an in-ISR call returns at once with no state
change; a non-ISR call with overwrite disabled busy-waits on `full()`,
which in the single-threaded model never terminates (`none`); with
overwrite enabled it falls through to the write. -/
def put (q : QueueState) (item : Int) (in_ISR : Bool) : Option QueueState :=
  if q.full then
    if in_ISR then some q
    else if ¬ q.overwrite then none
    else some (q.putWrite item)
  else some (q.putWrite item)

/-- Queue.get: busy-waits while empty (`none` in the single-threaded
model), then reads at the read index, advances it with wraparound and
decrements the occupancy (the source clamps it at zero; with Nat
occupancy and a non-empty queue the decrement is exact). -/
def get (q : QueueState) (_in_ISR : Bool) : Option (Int × QueueState) :=
  if q.empty then none
  else
    let v := q.buffer.getD q.rd_idx 0
    let r1 := q.rd_idx + 1
    let rd' := if r1 ≥ q.size then 0 else r1
    some (v, { q with rd_idx := rd', num_items := q.num_items - 1 })

end QueueState

/-- The state of a freshly constructed queue: `array.array(tc, range(size))`
fills the buffer with 0..size-1, then `clear()` zeroes the cursors,
occupancy and high-water-mark. -/
def mkQueue (size : Nat) (overwrite : Bool) : QueueState :=
  { size := size, overwrite := overwrite,
    buffer := (List.range size).map Int.ofNat,
    rd_idx := 0, wr_idx := 0, num_items := 0, max_full := 0 }

/-- Python exceptions raised by `array.array` during Queue construction. -/
inductive PyError where
  | valueError
  | memoryError
  deriving Repr, DecidableEq

/-- The element type codes accepted by `array.array` (task_share.py's
type_code_strings table). -/
def validTypeCode (tc : Char) : Bool :=
  tc ∈ ['b', 'B', 'h', 'H', 'i', 'I', 'l', 'L', 'q', 'Q', 'f', 'd']

/-- Queue.__init__ together with BaseShare.__init__.  The registry models
the module-level `share_list`; BaseShare.__init__ appends `self` (recorded
here by its type code) before the buffer allocation is attempted, so the
entry survives a construction failure.  `allocFails` is the allocation
oracle deciding whether `array.array` raises MemoryError; a bad type code
raises ValueError.  Both exceptions are re-raised to the caller. -/
def queueInit (tc : Char) (size : Nat) (overwrite : Bool) (allocFails : Bool)
    (registry : List Char) : Except PyError QueueState × List Char :=
  let registry' := registry ++ [tc]
  if ¬ validTypeCode tc then (Except.error PyError.valueError, registry')
  else if allocFails then (Except.error PyError.memoryError, registry')
  else (Except.ok (mkQueue size overwrite), registry')

/-- One queue operation, for reasoning about arbitrary interleavings. -/
inductive QOp where
  | putOp (item : Int) (in_ISR : Bool)
  | getOp (in_ISR : Bool)
  | clearOp
  deriving Repr, DecidableEq

/-- Apply one operation; get's returned value is discarded. -/
def QOp.apply (op : QOp) (q : QueueState) : Option QueueState :=
  match op with
  | .putOp item isr => q.put item isr
  | .getOp isr => (q.get isr).map Prod.snd
  | .clearOp => some q.clear

/-- Apply a sequence of operations left to right; `none` if any of them
would busy-wait forever. -/
def applySeq (ops : List QOp) (q : QueueState) : Option QueueState :=
  match ops with
  | [] => some q
  | op :: rest => (op.apply q).bind (applySeq rest)

/-- The abstract content of the queue: the occupancy-many elements
starting at the read index, in read order. -/
def qAbs (q : QueueState) : List Int :=
  (List.range q.num_items).map (fun i => q.buffer.getD ((q.rd_idx + i) % q.size) 0)

/-- Basic well-formedness: positive capacity, buffer of exactly that
length, cursors in range, occupancy and high-water-mark at most the
capacity.  Preserved by every operation (C9). -/
def QInv0 (q : QueueState) : Prop :=
  0 < q.size ∧ q.buffer.length = q.size ∧ q.rd_idx < q.size ∧
    q.wr_idx < q.size ∧ q.num_items ≤ q.size ∧ q.max_full ≤ q.size

/-- Ring coherence: the write cursor sits occupancy-many slots past the
read cursor.  Holds as long as no overwrite-on-full put has occurred. -/
def QInvC (q : QueueState) : Prop :=
  QInv0 q ∧ q.wr_idx = (q.rd_idx + q.num_items) % q.size

instance : DecidablePred QInv0 := fun q => by unfold QInv0; infer_instance
instance : DecidablePred QInvC := fun q => by unfold QInvC; infer_instance

/-! ## Generic list / arithmetic helpers -/

lemma getD_set_eq (l : List Int) (i : Nat) (a d : Int) (h : i < l.length) :
    (l.set i a).getD i d = a := by
  simp [List.getD, List.getElem?_set_self', h]

lemma getD_set_ne (l : List Int) (i j : Nat) (a d : Int) (h : j ≠ i) :
    (l.set i a).getD j d = l.getD j d := by
  simp [List.getD, List.getElem?_set_ne (by omega : i ≠ j)]

lemma modAdd (a b n : Nat) : (a % n + b) % n = (a + b) % n :=
  Nat.ModEq.add_right b (Nat.mod_modEq a n)

lemma modAddCancel {a i j n : Nat} (hi : i < n) (hj : j < n)
    (h : (a + i) % n = (a + j) % n) : i = j := by
  have h2 : i ≡ j [MOD n] := Nat.ModEq.add_left_cancel' a h
  have := h2.eq_of_lt_of_lt hi hj
  exact this

/-! ## Queue lemmas -/

lemma qAbs_length (q : QueueState) : (qAbs q).length = q.num_items := by
  simp [qAbs]

lemma qAbs_eq_cons (q : QueueState) (h : 0 < q.num_items) (hrd : q.rd_idx < q.size) :
    qAbs q = q.buffer.getD q.rd_idx 0 ::
      (List.range (q.num_items - 1)).map
        (fun i => q.buffer.getD ((q.rd_idx + 1 + i) % q.size) 0) := by
  obtain ⟨m, hm⟩ : ∃ m, q.num_items = m + 1 := ⟨q.num_items - 1, by omega⟩
  unfold qAbs
  rw [hm, List.range_succ_eq_map, List.map_cons, List.map_map]
  simp only [Nat.add_sub_cancel]
  congr 1
  · simp [Nat.mod_eq_of_lt hrd]
  · apply List.map_congr_left
    intro i _
    simp only [Function.comp]
    congr 2
    omega

lemma put_of_not_full (q : QueueState) (x : Int) (isr : Bool)
    (h : q.num_items < q.size) : q.put x isr = some (q.putWrite x) := by
  have hf : q.full = false := by simp [QueueState.full]; omega
  simp [QueueState.put, hf]

lemma putWrite_num_of_not_full (q : QueueState) (x : Int)
    (h : q.num_items < q.size) : (q.putWrite x).num_items = q.num_items + 1 := by
  simp only [QueueState.putWrite]
  split_ifs <;> omega

lemma putWrite_max_of_not_full (q : QueueState) (x : Int)
    (h : q.num_items < q.size) :
    (q.putWrite x).max_full =
      if q.num_items + 1 > q.max_full then q.num_items + 1 else q.max_full := by
  simp only [QueueState.putWrite]
  split_ifs <;> omega

lemma putWrite_wr_mod (q : QueueState) (x : Int) (hwr : q.wr_idx < q.size) :
    (q.putWrite x).wr_idx = (q.wr_idx + 1) % q.size := by
  simp only [QueueState.putWrite]
  split_ifs with h
  · have : q.wr_idx + 1 = q.size := by omega
    simp [this]
  · exact (Nat.mod_eq_of_lt (by omega)).symm

lemma putWrite_spec_not_full (q : QueueState) (x : Int) (hI : QInvC q)
    (h : q.num_items < q.size) :
    QInvC (q.putWrite x) ∧ qAbs (q.putWrite x) = qAbs q ++ [x] := by
  obtain ⟨⟨hsz, hbl, hrd, hwr, hnum, hmax⟩, hc⟩ := hI
  have hnum' := putWrite_num_of_not_full q x h
  have hmax' := putWrite_max_of_not_full q x h
  have hwr' : (q.putWrite x).wr_idx = (q.wr_idx + 1) % q.size :=
    putWrite_wr_mod q x hwr
  have hbuf : (q.putWrite x).buffer = q.buffer.set q.wr_idx x := rfl
  have hsz' : (q.putWrite x).size = q.size := rfl
  have hrd' : (q.putWrite x).rd_idx = q.rd_idx := rfl
  refine ⟨⟨⟨?_, ?_, ?_, ?_, ?_, ?_⟩, ?_⟩, ?_⟩
  · rw [hsz']; exact hsz
  · rw [hbuf, hsz']; simp [hbl]
  · rw [hrd', hsz']; exact hrd
  · rw [hwr', hsz']; exact Nat.mod_lt _ hsz
  · rw [hnum', hsz']; omega
  · rw [hmax', hsz']; split_ifs <;> omega
  · rw [hwr', hrd', hnum', hsz', hc, modAdd, Nat.add_assoc]
  · unfold qAbs
    rw [hnum', hrd', hsz', hbuf, List.range_succ, List.map_append,
      List.map_cons]
    congr 1
    · apply List.map_congr_left
      intro i hi
      have hilt : i < q.num_items := List.mem_range.mp hi
      apply getD_set_ne
      rw [hc]
      intro hcontra
      have := modAddCancel (n := q.size) (a := q.rd_idx)
        (by omega) (by omega) hcontra
      omega
    · simp only [List.map_cons, List.map_nil]
      congr 1
      rw [hc]
      exact getD_set_eq _ _ _ _ (by omega)

lemma put_full_overwrite_eq (q : QueueState) (x : Int)
    (hfull : q.num_items ≥ q.size) (ho : q.overwrite = true) :
    q.put x false = some (q.putWrite x) := by
  have hf : q.full = true := by simp [QueueState.full]; omega
  simp [QueueState.put, hf, ho]

lemma putWrite_spec_full (q : QueueState) (x : Int) (hI : QInvC q)
    (h : q.num_items = q.size) :
    QInv0 (q.putWrite x) ∧ qAbs (q.putWrite x) = x :: (qAbs q).tail ∧
      (q.putWrite x).num_items = q.size ∧
      (q.putWrite x).max_full = q.size ∧
      (q.putWrite x).rd_idx = q.rd_idx ∧
      (q.putWrite x).size = q.size := by
  obtain ⟨⟨hsz, hbl, hrd, hwr, hnum, hmax⟩, hc⟩ := hI
  have hwrrd : q.wr_idx = q.rd_idx := by
    rw [hc, h, Nat.add_mod_right, Nat.mod_eq_of_lt hrd]
  have hnum' : (q.putWrite x).num_items = q.size := by
    simp only [QueueState.putWrite]; split_ifs <;> omega
  have hmax' : (q.putWrite x).max_full = q.size := by
    simp only [QueueState.putWrite]; split_ifs <;> omega
  have hbuf : (q.putWrite x).buffer = q.buffer.set q.rd_idx x := by
    rw [← hwrrd]; rfl
  have hsz' : (q.putWrite x).size = q.size := rfl
  have hrd' : (q.putWrite x).rd_idx = q.rd_idx := rfl
  have hwr'lt : (q.putWrite x).wr_idx < q.size := by
    simp only [QueueState.putWrite]; split_ifs <;> omega
  refine ⟨⟨hsz, by rw [hbuf, hsz']; simp [hbl], by rw [hrd', hsz']; exact hrd,
    hwr'lt, by rw [hnum', hsz'], by rw [hmax', hsz']⟩, ?_, hnum', hmax', hrd', hsz'⟩
  have hq'pos : 0 < (q.putWrite x).num_items := by omega
  have hq'rd : (q.putWrite x).rd_idx < (q.putWrite x).size := by
    rw [hrd', hsz']; exact hrd
  rw [qAbs_eq_cons _ hq'pos hq'rd, qAbs_eq_cons q (by omega) hrd]
  simp only [List.tail_cons]
  congr 1
  · rw [hbuf, hrd']
    exact getD_set_eq _ _ _ _ (by omega)
  · rw [hnum', hrd', hsz', hbuf, h]
    apply List.map_congr_left
    intro i hi
    have hilt : i < q.size - 1 := List.mem_range.mp hi
    apply getD_set_ne
    intro hcontra
    have h2 : (q.rd_idx + (1 + i)) % q.size = (q.rd_idx + 0) % q.size := by
      rw [Nat.add_zero, Nat.mod_eq_of_lt hrd, ← Nat.add_assoc] at *
      exact hcontra
    have := modAddCancel (n := q.size) (a := q.rd_idx) (by omega) (by omega) h2
    omega

lemma get_spec (q : QueueState) (isr : Bool) (hI0 : QInv0 q)
    (h : 0 < q.num_items) :
    ∃ q', q.get isr = some ((qAbs q).headD 0, q') ∧ QInv0 q' ∧
      qAbs q' = (qAbs q).tail ∧ q'.num_items = q.num_items - 1 ∧
      q'.size = q.size ∧ q'.overwrite = q.overwrite ∧
      q'.max_full = q.max_full ∧ q'.wr_idx = q.wr_idx ∧
      q'.buffer = q.buffer ∧ q'.rd_idx = (q.rd_idx + 1) % q.size := by
  obtain ⟨hsz, hbl, hrd, hwr, hnum, hmax⟩ := hI0
  have hne : q.empty = false := by simp [QueueState.empty]; omega
  have hrdmod : (if q.rd_idx + 1 ≥ q.size then 0 else q.rd_idx + 1)
      = (q.rd_idx + 1) % q.size := by
    split_ifs with hcase
    · have : q.rd_idx + 1 = q.size := by omega
      simp [this]
    · exact (Nat.mod_eq_of_lt (by omega)).symm
  refine ⟨⟨q.size, q.overwrite, q.buffer, (q.rd_idx + 1) % q.size, q.wr_idx,
    q.num_items - 1, q.max_full⟩, ?_, ?_, ?_, rfl, rfl, rfl, rfl, rfl, rfl, rfl⟩
  · rw [qAbs_eq_cons q h hrd]
    simp [QueueState.get, hne, hrdmod]
  · exact ⟨hsz, hbl, Nat.mod_lt _ hsz, hwr,
      by show q.num_items - 1 ≤ q.size; omega, hmax⟩
  · rw [qAbs_eq_cons q h hrd]
    simp only [List.tail_cons]
    unfold qAbs
    apply List.map_congr_left
    intro i _
    simp only
    rw [modAdd]

/-- Put a whole list of values in order (each one call to Queue.put). -/
def putAll (q : QueueState) (vs : List Int) (isr : Bool) : Option QueueState :=
  match vs with
  | [] => some q
  | v :: rest => (q.put v isr).bind (fun q' => putAll q' rest isr)

/-- Get n values in order (each one call to Queue.get). -/
def getAll (q : QueueState) (n : Nat) (isr : Bool) : Option (List Int × QueueState) :=
  match n with
  | 0 => some ([], q)
  | n + 1 =>
    (q.get isr).bind (fun p =>
      (getAll p.2 n isr).map (fun r => (p.1 :: r.1, r.2)))

lemma putAll_spec (vs : List Int) (q : QueueState) (isr : Bool) (hI : QInvC q)
    (hroom : q.num_items + vs.length ≤ q.size)
    (hm : q.num_items ≤ q.max_full) :
    ∃ q', putAll q vs isr = some q' ∧ QInvC q' ∧ qAbs q' = qAbs q ++ vs ∧
      q'.num_items = q.num_items + vs.length ∧ q'.size = q.size ∧
      q'.overwrite = q.overwrite ∧
      q'.max_full = Nat.max q.max_full (q.num_items + vs.length) := by
  induction vs generalizing q with
  | nil =>
    refine ⟨q, rfl, hI, by simp, by simp, rfl, rfl, ?_⟩
    simp
    omega
  | cons v rest ih =>
    have hlt : q.num_items < q.size := by
      have := hroom; simp [List.length_cons] at this; omega
    have hput := put_of_not_full q v isr hlt
    obtain ⟨hIC', habs'⟩ := putWrite_spec_not_full q v hI hlt
    have hnum' := putWrite_num_of_not_full q v hlt
    have hmax' := putWrite_max_of_not_full q v hlt
    have hsz' : (q.putWrite v).size = q.size := rfl
    have hov' : (q.putWrite v).overwrite = q.overwrite := rfl
    obtain ⟨q'', hrun, hI'', habs'', hnum'', hsz'', hov'', hmax''⟩ :=
      ih (q.putWrite v) hIC'
        (by rw [hnum', hsz']; simp at hroom ⊢; omega)
        (by rw [hnum', hmax']; split_ifs <;> omega)
    refine ⟨q'', ?_, hI'', ?_, ?_, ?_, ?_, ?_⟩
    · rw [putAll, hput, Option.some_bind]
      exact hrun
    · rw [habs'', habs']; simp
    · rw [hnum'', hnum']; simp; omega
    · rw [hsz'', hsz']
    · rw [hov'', hov']
    · rw [hmax'', hnum', hmax']
      simp only [Nat.max_def, List.length_cons]
      split_ifs <;> omega

lemma getAll_spec (n : Nat) (q : QueueState) (isr : Bool) (hI : QInv0 q)
    (hn : n ≤ q.num_items) :
    ∃ q', getAll q n isr = some ((qAbs q).take n, q') ∧ QInv0 q' ∧
      qAbs q' = (qAbs q).drop n ∧ q'.num_items = q.num_items - n ∧
      q'.size = q.size ∧ q'.overwrite = q.overwrite ∧
      q'.max_full = q.max_full := by
  induction n generalizing q with
  | zero => exact ⟨q, by simp [getAll], hI, by simp, by omega, rfl, rfl, rfl⟩
  | succ n ih =>
    have hpos : 0 < q.num_items := by omega
    obtain ⟨q1, hget, hI1, habs1, hnum1, hsz1, hov1, hmax1, _, _, _⟩ :=
      get_spec q isr hI hpos
    obtain ⟨q', hrun, hI', habs', hnum', hsz', hov', hmax'⟩ :=
      ih q1 hI1 (by omega)
    have hne : qAbs q ≠ [] := by
      intro hcontra
      have := qAbs_length q
      rw [hcontra] at this
      simp at this
      omega
    refine ⟨q', ?_, hI', ?_, by omega, by rw [hsz', hsz1],
      by rw [hov', hov1], by rw [hmax', hmax1]⟩
    · rw [getAll, hget, Option.some_bind, hrun, Option.map_some']
      congr 2
      rw [habs1]
      obtain ⟨a, as, hq⟩ := List.exists_cons_of_ne_nil hne
      rw [hq]
      simp
    · rw [habs', habs1]
      obtain ⟨a, as, hq⟩ := List.exists_cons_of_ne_nil hne
      rw [hq]
      simp

lemma inv0_putWrite (q : QueueState) (x : Int) (h : QInv0 q) :
    QInv0 (q.putWrite x) ∧ q.max_full ≤ (q.putWrite x).max_full := by
  obtain ⟨hsz, hbl, hrd, hwr, hnum, hmax⟩ := h
  unfold QInv0 QueueState.putWrite
  simp only [List.length_set]
  split_ifs <;> exact ⟨⟨hsz, hbl, hrd, by omega, by omega, by omega⟩, by omega⟩

lemma inv0_put (q q' : QueueState) (x : Int) (isr : Bool) (h : QInv0 q)
    (hput : q.put x isr = some q') :
    QInv0 q' ∧ q.max_full ≤ q'.max_full := by
  unfold QueueState.put at hput
  split_ifs at hput <;> simp only [Option.some.injEq] at hput <;>
    first
      | (subst hput; exact ⟨h, le_refl _⟩)
      | (subst hput; exact inv0_putWrite q x h)

lemma inv0_get (q : QueueState) (p : Int × QueueState) (isr : Bool) (h : QInv0 q)
    (hget : q.get isr = some p) :
    QInv0 p.2 ∧ q.max_full ≤ p.2.max_full := by
  obtain ⟨hsz, hbl, hrd, hwr, hnum, hmax⟩ := h
  unfold QueueState.get at hget
  split_ifs at hget with hem
  simp only [Option.some.injEq] at hget
  subst hget
  refine ⟨⟨hsz, hbl, ?_, hwr, show q.num_items - 1 ≤ q.size from by omega, hmax⟩,
    le_refl _⟩
  show (if q.rd_idx + 1 ≥ q.size then 0 else q.rd_idx + 1) < q.size
  split_ifs <;> omega

lemma inv0_clear (q : QueueState) (h : 0 < q.size) (hb : q.buffer.length = q.size) :
    QInv0 q.clear :=
  ⟨h, hb, h, h, Nat.zero_le _, Nat.zero_le _⟩

lemma inv0_applySeq (ops : List QOp) (q q' : QueueState) (h : QInv0 q)
    (hrun : applySeq ops q = some q') : QInv0 q' := by
  induction ops generalizing q with
  | nil => simp [applySeq] at hrun; rw [← hrun]; exact h
  | cons op rest ih =>
    rw [applySeq] at hrun
    obtain ⟨q1, happ, hrest⟩ := Option.bind_eq_some.mp hrun
    apply ih q1 _ hrest
    match op with
    | .putOp item isr => exact (inv0_put q q1 item isr h happ).1
    | .getOp isr =>
      obtain ⟨p, hget, hq1⟩ := Option.map_eq_some'.mp happ
      rw [← hq1]
      exact (inv0_get q p isr h hget).1
    | .clearOp =>
      simp only [QOp.apply, Option.some.injEq] at happ
      rw [← happ]
      exact inv0_clear q h.1 h.2.1

lemma size_op (op : QOp) (q q1 : QueueState) (h : op.apply q = some q1) :
    q1.size = q.size := by
  match op with
  | .putOp item isr =>
    unfold QOp.apply QueueState.put at h
    by_cases hf : q.full <;> by_cases ho : q.overwrite <;> cases isr <;>
      simp [hf, ho] at h <;> rw [← h] <;> rfl
  | .getOp isr =>
    unfold QOp.apply QueueState.get at h
    split_ifs at h
    · simp at h
    · simp only [Option.map_some', Option.some.injEq] at h
      rw [← h]
  | .clearOp =>
    simp only [QOp.apply, Option.some.injEq] at h
    rw [← h]
    rfl

lemma size_applySeq (ops : List QOp) (q q' : QueueState)
    (hrun : applySeq ops q = some q') : q'.size = q.size := by
  induction ops generalizing q with
  | nil => simp [applySeq] at hrun; rw [← hrun]
  | cons op rest ih =>
    rw [applySeq] at hrun
    obtain ⟨q1, happ, hrest⟩ := Option.bind_eq_some.mp hrun
    rw [ih q1 hrest, size_op op q q1 happ]

lemma putAll_append (q : QueueState) (as bs : List Int) (isr : Bool) :
    putAll q (as ++ bs) isr = (putAll q as isr).bind (fun q' => putAll q' bs isr) := by
  induction as generalizing q with
  | nil => simp [putAll]
  | cons a rest ih =>
    simp only [List.cons_append, putAll, Option.bind_assoc]
    cases q.put a isr with
    | none => simp
    | some q1 => simp [ih q1]

lemma mkQueue_invC (N : Nat) (ow : Bool) (hN : 1 ≤ N) : QInvC (mkQueue N ow) := by
  refine ⟨⟨hN, ?_, hN, hN, Nat.zero_le _, Nat.zero_le _⟩, ?_⟩ <;>
    simp [mkQueue]

lemma mkQueue_qAbs (N : Nat) (ow : Bool) : qAbs (mkQueue N ow) = [] := by
  simp [qAbs, mkQueue]

/-! ## Claim theorems: Queue -/

/-- C1 (counterexample).  The claim says Queue.clear leaves the
high-water-mark at its prior value.  On the queue obtained by putting two
values into a fresh capacity-3 queue the high-water-mark is 2, yet after
clear() it is 0: task_share.py line 114 resets `_max_full` to zero. -/
theorem C1_counterexample :
    (putAll (mkQueue 3 false) [5, 7] false).map
        (fun q => q.max_full) = some 2 ∧
      (putAll (mkQueue 3 false) [5, 7] false).map
        (fun q => q.clear.max_full) = some 0 ∧
      (putAll (mkQueue 3 false) [5, 7] false).map
          (fun q => q.clear.max_full) ≠
        (putAll (mkQueue 3 false) [5, 7] false).map
          (fun q => q.max_full) := by
  refine ⟨by decide, by decide, by decide⟩

/-- C1 (amended).  Queue.clear resets the read index, write index and
occupancy to zero, making empty() true afterward, and also resets the
high-water-mark `_max_full` to zero (it does not preserve it). -/
theorem C1_clear_resets_everything (q : QueueState) :
    q.clear.rd_idx = 0 ∧ q.clear.wr_idx = 0 ∧ q.clear.num_items = 0 ∧
      q.clear.empty = true ∧ q.clear.max_full = 0 :=
  ⟨rfl, rfl, rfl, rfl, rfl⟩

/-- C3 (counterexample).  The claim says a non-positive capacity makes the
constructor raise, and that no registry entry remains for a failed object.
Both fail: `Queue('i', 0)` constructs without error (`array.array('i',
range(0))` is legal), and after a genuinely failing construction
(`Queue('z', 5)`, bad type code) the share_list registry still holds the
entry that BaseShare.__init__ appended before the allocation failed. -/
theorem C3_counterexample :
    (queueInit 'i' 0 false false []).fst = Except.ok (mkQueue 0 false) ∧
      (queueInit 'z' 5 false false []).fst = Except.error PyError.valueError ∧
      (queueInit 'z' 5 false false []).snd = ['z'] := by
  refine ⟨rfl, rfl, by decide⟩

/-- C3 (amended).  Queue construction raises synchronously exactly when the
element-type code is invalid (ValueError) or the allocation fails
(MemoryError); a non-positive (zero) capacity is not rejected.  In every
case - success or failure - the shared-object registry retains the entry
appended by BaseShare.__init__, so a failed construction does leave an
observable registry entry behind. -/
theorem C3_init_behavior (tc : Char) (size : Nat) (ow alloc : Bool)
    (reg : List Char) :
    (queueInit tc size ow alloc reg).snd = reg ++ [tc] ∧
      ((∃ e, (queueInit tc size ow alloc reg).fst = Except.error e) ↔
        (validTypeCode tc = false ∨ alloc = true)) ∧
      (validTypeCode tc = true → alloc = false →
        (queueInit tc size ow alloc reg).fst = Except.ok (mkQueue size ow)) := by
  unfold queueInit
  by_cases hv : validTypeCode tc <;> cases alloc <;>
    simp [hv]

/-- C3 witness: amended theorem applied at a concrete successful input. -/
theorem C3_init_behavior_witness :
    validTypeCode 'i' = true ∧ (false : Bool) = false ∧
      (queueInit 'i' 4 false false []).fst = Except.ok (mkQueue 4 false) :=
  ⟨by decide, rfl, (C3_init_behavior 'i' 4 false false []).2.2 (by decide) rfl⟩

/-- C7 (confirmed).  FIFO round trip: for a capacity-N queue (N >= 1),
putting the N values vs in order succeeds, after which full() is true;
getting N times returns exactly vs in order (leaving the queue empty), and
after any k of those gets (1 <= k <= N) full() is false. -/
theorem C7_fifo_roundtrip (N : Nat) (vs : List Int) (ow : Bool)
    (hN : 1 ≤ N) (hlen : vs.length = N) :
    ∃ qf, putAll (mkQueue N ow) vs false = some qf ∧ qf.full = true ∧
      (∃ qe, getAll qf N false = some (vs, qe) ∧ qe.empty = true) ∧
      (∀ k, 1 ≤ k → k ≤ N →
        ∃ qk, getAll qf k false = some (vs.take k, qk) ∧ qk.full = false) := by
  have hIC := mkQueue_invC N ow hN
  obtain ⟨qf, hput, hICf, habs, hnum, hsz, hov, hmax⟩ :=
    putAll_spec vs (mkQueue N ow) false hIC (by simp [mkQueue, hlen])
      (by simp [mkQueue])
  rw [mkQueue_qAbs] at habs
  simp only [List.nil_append] at habs
  have hnumf : qf.num_items = N := by rw [hnum, hlen]; simp [mkQueue]
  have hszf : qf.size = N := hsz
  refine ⟨qf, hput, ?_, ?_, ?_⟩
  · simp [QueueState.full, hnumf, hszf]
  · obtain ⟨qe, hget, _, _, hnum', _, _, _⟩ :=
      getAll_spec N qf false hICf.1 (by omega)
    refine ⟨qe, ?_, ?_⟩
    · rw [hget, habs]
      congr 1
      rw [List.take_of_length_le (by rw [hlen])]
    · simp [QueueState.empty]
      omega
  · intro k hk1 hkN
    obtain ⟨qk, hget, _, _, hnumk, hszk, _, _⟩ :=
      getAll_spec k qf false hICf.1 (by omega)
    refine ⟨qk, by rw [hget, habs], ?_⟩
    simp [QueueState.full, hnumk, hszk, hnumf, hszf]
    omega

/-- C7 witness: the theorem at N = 2, vs = [4, 9]. -/
theorem C7_fifo_roundtrip_witness :
    1 ≤ 2 ∧ ([4, 9] : List Int).length = 2 ∧
      (∃ qf, putAll (mkQueue 2 false) [4, 9] false = some qf ∧
        qf.full = true ∧
        (∃ qe, getAll qf 2 false = some ([4, 9], qe) ∧ qe.empty = true) ∧
        (∀ k, 1 ≤ k → k ≤ 2 →
          ∃ qk, getAll qf k false = some (([4, 9] : List Int).take k, qk) ∧
            qk.full = false)) :=
  ⟨by decide, by decide, C7_fifo_roundtrip 2 [4, 9] false (by decide) (by decide)⟩

/-- C8 (confirmed).  With overwrite disabled, a put from interrupt context
on a full queue returns at once with the state entirely unchanged: the
value is silently dropped (task_share.py lines 48-50). -/
theorem C8_isr_put_on_full_drops (q : QueueState) (x : Int)
    (_ho : q.overwrite = false) (hf : q.full = true) :
    q.put x true = some q := by
  simp [QueueState.put, hf]

/-- C8 witness: a full capacity-1 queue with overwrite disabled. -/
theorem C8_isr_put_on_full_drops_witness :
    ((mkQueue 1 false).putWrite 3).overwrite = false ∧
      ((mkQueue 1 false).putWrite 3).full = true ∧
      ((mkQueue 1 false).putWrite 3).put 9 true =
        some ((mkQueue 1 false).putWrite 3) :=
  ⟨by decide, by decide,
    C8_isr_put_on_full_drops ((mkQueue 1 false).putWrite 3) 9
      (by decide) (by decide)⟩

/-- C9 (confirmed).  From any well-formed queue state, every sequence of
put/get/clear operations that completes preserves occupancy <= capacity and
keeps both indices inside [0, capacity) (the capacity itself never
changes); and no single put or get ever decreases the high-water-mark. -/
theorem C9_invariants_preserved (q : QueueState) (hI : QInv0 q) :
    (∀ ops q', applySeq ops q = some q' →
        q'.size = q.size ∧ q'.num_items ≤ q'.size ∧
          q'.rd_idx < q'.size ∧ q'.wr_idx < q'.size) ∧
      (∀ x isr q', q.put x isr = some q' → q.max_full ≤ q'.max_full) ∧
      (∀ isr p, q.get isr = some p → q.max_full ≤ p.2.max_full) := by
  refine ⟨?_, ?_, ?_⟩
  · intro ops q' hrun
    obtain ⟨_, _, hrd, hwr, hnum, _⟩ := inv0_applySeq ops q q' hI hrun
    exact ⟨size_applySeq ops q q' hrun, hnum, hrd, hwr⟩
  · intro x isr q' hput
    exact (inv0_put q q' x isr hI hput).2
  · intro isr p hget
    exact (inv0_get q p isr hI hget).2

/-- C9 witness: the theorem at a concrete fresh capacity-2 queue. -/
theorem C9_invariants_preserved_witness :
    QInv0 (mkQueue 2 false) ∧
      ((∀ ops q', applySeq ops (mkQueue 2 false) = some q' →
          q'.size = (mkQueue 2 false).size ∧ q'.num_items ≤ q'.size ∧
            q'.rd_idx < q'.size ∧ q'.wr_idx < q'.size) ∧
        (∀ x isr q', (mkQueue 2 false).put x isr = some q' →
          (mkQueue 2 false).max_full ≤ q'.max_full) ∧
        (∀ isr p, (mkQueue 2 false).get isr = some p →
          (mkQueue 2 false).max_full ≤ p.2.max_full)) :=
  ⟨by decide, C9_invariants_preserved (mkQueue 2 false) (by decide)⟩

/-- C2 (counterexample).  The claim says that with overwrite enabled and
capacity N, putting v0..vN and then getting N times yields [v1, ..., vN].
At N = 2 with values [10, 20, 30] the code instead returns [30, 20]: the
overwriting put stores the newest value in the slot the read cursor points
at (the read index is not advanced), so the newest value is read first. -/
theorem C2_counterexample :
    (putAll (mkQueue 2 true) [10, 20, 30] false).bind
        (fun q => (getAll q 2 false).map Prod.fst) = some [30, 20] ∧
      ([30, 20] : List Int) ≠ [20, 30] := by
  refine ⟨by decide, by decide⟩

/-- C2 (amended).  With overwrite enabled and capacity N >= 1, putting the
N+1 values vs = [v0, ..., vN] from empty succeeds; the oldest value v0 is
dropped, but the N subsequent gets return the newest value first:
vs.drop N ++ (vs.take N).tail = [vN, v1, ..., v(N-1)] (the overwriting put
stores vN into the slot the read cursor points at without advancing the
read cursor).  After the puts the high-water-mark equals N, and it never
exceeds N under any further completed sequence of operations. -/
theorem C2_overwrite_behavior (N : Nat) (vs : List Int)
    (hN : 1 ≤ N) (hlen : vs.length = N + 1) :
    ∃ qf, putAll (mkQueue N true) vs false = some qf ∧
      qf.max_full = N ∧
      (∃ qe, getAll qf N false =
        some (vs.drop N ++ (vs.take N).tail, qe)) ∧
      (∀ ops q2, applySeq ops qf = some q2 → q2.max_full ≤ N) := by
  obtain ⟨w, hw⟩ : ∃ w, vs.drop N = [w] := by
    apply List.length_eq_one.mp
    rw [List.length_drop, hlen]
    omega
  have hsplit : vs = vs.take N ++ [w] := by rw [← hw, List.take_append_drop]
  have htklen : (vs.take N).length = N := by
    rw [List.length_take, hlen]
    omega
  have hIC := mkQueue_invC N true hN
  obtain ⟨q1, hput1, hIC1, habs1, hnum1, hsz1, hov1, hmax1⟩ :=
    putAll_spec (vs.take N) (mkQueue N true) false hIC
      (by simp [mkQueue, htklen]) (by simp [mkQueue])
  rw [mkQueue_qAbs] at habs1
  simp only [List.nil_append] at habs1
  have hnum1' : q1.num_items = N := by rw [hnum1, htklen]; simp [mkQueue]
  have hsz1' : q1.size = N := hsz1
  have hov1' : q1.overwrite = true := hov1
  have hput2 : q1.put w false = some (q1.putWrite w) :=
    put_full_overwrite_eq q1 w (by omega) hov1'
  have hIC1' : QInvC q1 := hIC1
  obtain ⟨hI0f, habsf, hnumf, hmaxf, _, hszf⟩ :=
    putWrite_spec_full q1 w hIC1' (by omega)
  have hrun : putAll (mkQueue N true) vs false = some (q1.putWrite w) := by
    rw [hsplit, putAll_append, hput1, Option.some_bind, putAll, hput2,
      Option.some_bind, putAll]
  refine ⟨q1.putWrite w, hrun, by rw [hmaxf, hsz1'], ?_, ?_⟩
  · obtain ⟨qe, hget, _, _, _, _, _, _⟩ :=
      getAll_spec N (q1.putWrite w) false hI0f (by omega)
    refine ⟨qe, ?_⟩
    rw [hget, habsf, habs1, hw]
    have htake : List.take N (w :: (List.take N vs).tail)
        = w :: (List.take N vs).tail := by
      apply List.take_of_length_le
      rw [List.length_cons, List.length_tail, htklen]
      omega
    rw [htake]
    simp
  · intro ops q2 hrun2
    have hinv2 := inv0_applySeq ops (q1.putWrite w) q2 hI0f hrun2
    have hsz2 := size_applySeq ops (q1.putWrite w) q2 hrun2
    have : q2.max_full ≤ q2.size := hinv2.2.2.2.2.2
    rw [hsz2, hszf, hsz1'] at this
    exact this

/-- C2 witness: the amended theorem at N = 2, vs = [10, 20, 30]. -/
theorem C2_overwrite_behavior_witness :
    1 ≤ 2 ∧ ([10, 20, 30] : List Int).length = 2 + 1 ∧
      (∃ qf, putAll (mkQueue 2 true) [10, 20, 30] false = some qf ∧
        qf.max_full = 2 ∧
        (∃ qe, getAll qf 2 false =
          some (([10, 20, 30] : List Int).drop 2 ++
            (([10, 20, 30] : List Int).take 2).tail, qe)) ∧
        (∀ ops q2, applySeq ops qf = some q2 → q2.max_full ≤ 2)) :=
  ⟨by decide, by decide,
    C2_overwrite_behavior 2 [10, 20, 30] (by decide) (by decide)⟩

/-! ## Task (cotask.py, class Task)

Timestamps come from utime.ticks_us, a wrapping 30-bit microsecond
counter; utime.ticks_diff is its wraparound-safe signed difference.
MicroPython generators are modelled by a resumption counter `gen_count`
plus a function `codes` giving the state code yielded by each resumption.
The MemoryError recovery path in Task.schedule's trace block models
allocation as always succeeding (no claim concerns trace exhaustion). -/

def TICKS_PERIOD : Int := 1073741824

def TICKS_HALF : Int := 536870912

/-- utime.ticks_diff: wraparound-safe signed difference of two tick
values, with result in [-TICKS_HALF, TICKS_HALF). -/
def ticksDiff (a b : Int) : Int :=
  (a - b + TICKS_HALF) % TICKS_PERIOD - TICKS_HALF

/-- State of a `Task` object from cotask.py.  `period` is in microseconds
(the constructor and set_period multiply by 1000); `next_run` is None
exactly when the task is non-periodic. -/
structure TaskState where
  name : String
  priority : Int
  period : Option Int
  next_run : Option Int
  prof : Bool
  runs : Nat
  run_sum : Int
  slowest : Int
  late_sum : Int
  latest : Int
  trace : Bool
  prev_state : Int
  tr_data : List (Int × Int)
  prev_time : Int
  go_flag : Bool
  codes : Nat → Int
  gen_count : Nat

instance : Inhabited TaskState :=
  ⟨⟨"", 0, none, none, false, 0, 0, 0, 0, 0, false, 0, [], 0, false,
    fun _ => 0, 0⟩⟩

namespace TaskState

/-- Task.ready (cotask.py lines 80-93), called at tick time `now`.
For a periodic task whose deadline has passed (late > 0) it sets the go
flag, advances the deadline by one period added to the previous deadline
(via the wraparound-safe ticks_diff(period, -next_run) trick), and, when
profiling, accumulates the lateness.  Returns `none` when the source would
raise TypeError (period set but next_run is None, reachable only via
set_period on an initially non-periodic task). -/
def ready (now : Int) (t : TaskState) : Option (Bool × TaskState) :=
  match t.period with
  | none => some (t.go_flag, t)
  | some per =>
    match t.next_run with
    | none => none
    | some nr =>
      let late := ticksDiff now nr
      if late > 0 then
        let t1 := { t with go_flag := true,
                           next_run := some (ticksDiff per (-nr)) }
        let t2 := if t1.prof then
            { t1 with late_sum := t1.late_sum + late,
                      latest := if late > t1.latest then late else t1.latest }
          else t1
        some (true, t2)
      else some (t.go_flag, t)

/-- Task.set_period (cotask.py lines 94-98): replaces the stored period
(milliseconds argument scaled to microseconds) and touches nothing else. -/
def set_period (t : TaskState) (newPeriod : Option Int) : TaskState :=
  match newPeriod with
  | none => { t with period := none }
  | some p => { t with period := some (p * 1000) }

/-- Task.go (cotask.py lines 119-120). -/
def go (t : TaskState) : TaskState := { t with go_flag := true }

end TaskState

/-- The ambient inputs consumed by one Task.schedule call: the clock reads
taken inside ready() (`now`) and around the generator resumption
(`stime`, `etime`). -/
structure Env where
  now : Int
  stime : Int
  etime : Int

instance : Inhabited Env := ⟨⟨0, 0, 0⟩⟩

/-- Task.schedule (cotask.py lines 41-77).  If ready() is false, returns
false with the (ready-updated) task unchanged; otherwise clears the go
flag, resumes the generator once, folds profiling data (discarding the
first two samples) and trace data, and returns true. -/
def TaskState.schedule (e : Env) (t : TaskState) : Option (Bool × TaskState) :=
  match t.ready e.now with
  | none => none
  | some (r, t0) =>
    if r then
      let curr := t0.codes t0.gen_count
      let t1 := { t0 with go_flag := false, gen_count := t0.gen_count + 1 }
      let t2 :=
        if t1.prof then
          let runt := ticksDiff e.etime e.stime
          let t1a := { t1 with runs := t1.runs + 1 }
          if t1a.runs > 2 then
            { t1a with run_sum := t1a.run_sum + runt,
                       slowest := if runt > t1a.slowest then runt
                                  else t1a.slowest }
          else t1a
        else t1
      let t3 :=
        if t2.trace then
          let t2a := if curr ≠ t2.prev_state then
              { t2 with tr_data :=
                  t2.tr_data ++ [(ticksDiff e.etime t2.prev_time, curr)] }
            else t2
          { t2a with prev_state := curr, prev_time := e.etime }
        else t2
      some (true, t3)
    else some (false, t0)

/-- Iterated ready() calls at the given sequence of clock readings
(C4: one call per periodic activation). -/
def readyFold (nows : List Int) (t : TaskState) : Option TaskState :=
  match nows with
  | [] => some t
  | now :: rest => (t.ready now).bind (fun p => readyFold rest p.2)

/-- Executable predicate: every clock reading in the list observes the
current deadline as missed by at most one period (0 < lateness <= period),
i.e. each call is an on-time activation. -/
def onTimeRun (per : Int) (nows : List Int) (t : TaskState) : Bool :=
  match nows with
  | [] => true
  | now :: rest =>
    match t.next_run with
    | none => false
    | some nr =>
      decide (0 < ticksDiff now nr) && decide (ticksDiff now nr ≤ per) &&
        (match t.ready now with
         | none => false
         | some p => onTimeRun per rest p.2)

/-! ## Task lemmas (C4, C10) -/

lemma tickAdd_modeq (per nr : Int) :
    ticksDiff per (-nr) ≡ nr + per [ZMOD TICKS_PERIOD] := by
  show ticksDiff per (-nr) % TICKS_PERIOD = (nr + per) % TICKS_PERIOD
  simp only [ticksDiff, TICKS_PERIOD, TICKS_HALF]
  omega

lemma ready_fire (t : TaskState) (per nr now : Int)
    (hper : t.period = some per) (hnr : t.next_run = some nr)
    (hlate : 0 < ticksDiff now nr) :
    ∃ t', t.ready now = some (true, t') ∧ t'.period = some per ∧
      t'.next_run = some (ticksDiff per (-nr)) := by
  unfold TaskState.ready
  rw [hper, hnr]
  dsimp only
  rw [if_pos (show ticksDiff now nr > 0 from hlate)]
  refine ⟨_, rfl, ?_, ?_⟩
  · split_ifs <;> rfl
  · split_ifs <;> rfl

/-- Deadline state of the sample periodic task used in witnesses. -/
def sampleTask : TaskState :=
  { (default : TaskState) with period := some 10, next_run := some 100 }

/-- C4 (confirmed).  For a periodic task with period per and current
deadline d0, any sequence of k consecutive on-time activations (each
observed lateness positive and at most one period) leaves the deadline
congruent to d0 + k*per modulo the tick period: ready() always advances
the deadline by adding one period to the previous deadline via the
wraparound-safe ticks_diff trick, and the result does not depend on the
observed clock values, so the deadline is never resynchronized to the
current time and no drift accumulates. -/
theorem C4_no_drift (t : TaskState) (per d0 : Int) (nows : List Int)
    (hper : t.period = some per) (hd0 : t.next_run = some d0)
    (hot : onTimeRun per nows t = true) :
    ∃ t' d, readyFold nows t = some t' ∧ t'.next_run = some d ∧
      t'.period = some per ∧
      d ≡ d0 + (nows.length : Int) * per [ZMOD TICKS_PERIOD] := by
  induction nows generalizing t d0 with
  | nil => exact ⟨t, d0, rfl, hd0, hper, by simp⟩
  | cons now rest ih =>
    unfold onTimeRun at hot
    rw [hd0] at hot
    simp only [Bool.and_eq_true, decide_eq_true_eq] at hot
    obtain ⟨⟨hlate, _⟩, hrest⟩ := hot
    obtain ⟨t1, hready, hper1, hnext1⟩ := ready_fire t per d0 now hper hd0 hlate
    rw [hready] at hrest
    obtain ⟨t', d, hfold, hnext', hper', hmod⟩ :=
      ih t1 (ticksDiff per (-d0)) hper1 hnext1 hrest
    refine ⟨t', d, ?_, hnext', hper', ?_⟩
    · rw [readyFold, hready, Option.some_bind]
      exact hfold
    · have h2 := (tickAdd_modeq per d0).add_right ((rest.length : Int) * per)
      have h3 := hmod.trans h2
      have harith : d0 + per + (rest.length : Int) * per
          = d0 + (((now :: rest).length : Nat) : Int) * per := by
        simp only [List.length_cons]
        push_cast
        ring
      rw [← harith]
      exact h3

/-- C4 witness: a period-10 task with deadline 100 activated on time at
ticks 105, 112, 125 ends with deadline congruent to 100 + 3*10. -/
theorem C4_no_drift_witness :
    sampleTask.period = some 10 ∧ sampleTask.next_run = some 100 ∧
      onTimeRun 10 [105, 112, 125] sampleTask = true ∧
      (∃ t' d, readyFold [105, 112, 125] sampleTask = some t' ∧
        t'.next_run = some d ∧ t'.period = some 10 ∧
        d ≡ 100 + (([105, 112, 125] : List Int).length : Int) * 10
          [ZMOD TICKS_PERIOD]) :=
  ⟨rfl, rfl, by decide,
    C4_no_drift sampleTask 10 100 [105, 112, 125] rfl rfl (by decide)⟩

lemma ready_no_fire (t : TaskState) (per nr now : Int)
    (hper : t.period = some per) (hnr : t.next_run = some nr)
    (h : ¬ 0 < ticksDiff now nr) : t.ready now = some (t.go_flag, t) := by
  unfold TaskState.ready
  rw [hper, hnr]
  dsimp only
  rw [if_neg (show ¬ ticksDiff now nr > 0 from h)]

/-- C10 (confirmed).  Task.set_period replaces only the stored period
field (scaling a numeric argument to microseconds); the scheduled
next-deadline timestamp, the readiness flag, the generator position, and
all profiling and trace state are untouched.  Consequently, for a
well-formed periodic task, changing the period does not change the boolean
result of any subsequent ready() call made before the old deadline fires -
the new period only takes effect when the previously scheduled deadline
next expires. -/
theorem C10_set_period_frame (t : TaskState) (p : Option Int) :
    ((t.set_period p).next_run = t.next_run ∧
      (t.set_period p).go_flag = t.go_flag ∧
      (t.set_period p).gen_count = t.gen_count) ∧
    ((t.set_period p).prof = t.prof ∧ (t.set_period p).runs = t.runs ∧
      (t.set_period p).run_sum = t.run_sum ∧
      (t.set_period p).slowest = t.slowest ∧
      (t.set_period p).late_sum = t.late_sum ∧
      (t.set_period p).latest = t.latest) ∧
    ((t.set_period p).trace = t.trace ∧
      (t.set_period p).prev_state = t.prev_state ∧
      (t.set_period p).tr_data = t.tr_data ∧
      (t.set_period p).prev_time = t.prev_time) ∧
    ((t.set_period p).period = p.map (fun v => v * 1000)) ∧
    (∀ now per0 d newp, t.period = some per0 → t.next_run = some d →
      ∃ b t1 t2, t.ready now = some (b, t1) ∧
        (t.set_period (some newp)).ready now = some (b, t2)) := by
  refine ⟨?_, ?_, ?_, ?_, ?_⟩
  · cases p <;> exact ⟨rfl, rfl, rfl⟩
  · cases p <;> exact ⟨rfl, rfl, rfl, rfl, rfl, rfl⟩
  · cases p <;> exact ⟨rfl, rfl, rfl, rfl⟩
  · cases p <;> rfl
  · intro now per0 d newp hper hnr
    have hper2 : (t.set_period (some newp)).period = some (newp * 1000) := rfl
    have hnr2 : (t.set_period (some newp)).next_run = some d := by
      show t.next_run = some d
      exact hnr
    by_cases hl : 0 < ticksDiff now d
    · obtain ⟨t1, h1, _, _⟩ := ready_fire t per0 d now hper hnr hl
      obtain ⟨t2, h2, _, _⟩ :=
        ready_fire (t.set_period (some newp)) (newp * 1000) d now hper2 hnr2 hl
      exact ⟨true, t1, t2, h1, h2⟩
    · refine ⟨t.go_flag, t, t.set_period (some newp),
        ready_no_fire t per0 d now hper hnr hl, ?_⟩
      exact ready_no_fire (t.set_period (some newp)) (newp * 1000) d now
        hper2 hnr2 hl

/-- C10 witness: the theorem at the sample periodic task with a new
period. -/
theorem C10_set_period_frame_witness :
    sampleTask.period = some 10 ∧ sampleTask.next_run = some 100 ∧
      (sampleTask.set_period (some 5)).next_run = sampleTask.next_run ∧
      (∃ b t1 t2, sampleTask.ready 105 = some (b, t1) ∧
        (sampleTask.set_period (some 5)).ready 105 = some (b, t2)) :=
  ⟨rfl, rfl, (C10_set_period_frame sampleTask (some 5)).1.1,
    (C10_set_period_frame sampleTask (some 5)).2.2.2.2 105 10 100 5 rfl rfl⟩

/-! ## TaskList (cotask.py, class TaskList)

A priority group models one inner list `[priority, cursor, task, ...]` of
cotask's pri_list: `pri` is element 0, `cursor` the rotating index stored
at element 1 (an index into that flat list, so it starts at 2 and wraps
back to 2), and `tasks` the tasks from element 2 on.  The dispatchers
thread the stream of per-call ambient inputs `env` together with a call
counter, one Env per Task.schedule call. -/

structure PriGroup where
  pri : Int
  cursor : Nat
  tasks : List TaskState

instance : Inhabited PriGroup := ⟨⟨0, 2, []⟩⟩

/-- The for-loop of TaskList.append: give the new task to the first group
with matching priority, `none` if there is none (the for-else path). -/
def addToFirst : List PriGroup → TaskState → Option (List PriGroup)
  | [], _ => none
  | g :: gs, t =>
    if g.pri = t.priority then some ({ g with tasks := g.tasks ++ [t] } :: gs)
    else (addToFirst gs t).map (fun l => g :: l)

/-- Stable insertion used by sortDesc: place the new group before the
first existing group of equal or lower priority. -/
def insDesc (g : PriGroup) : List PriGroup → List PriGroup
  | [] => [g]
  | e :: t => if e.pri ≤ g.pri then g :: e :: t else e :: insDesc g t

/-- `self.pri_list.sort(key=lambda pri: pri[0], reverse=True)`: Python's
sort is stable, and a stable descending sort result is unique, so this
insertion sort models it exactly. -/
def sortDesc : List PriGroup → List PriGroup
  | [] => []
  | g :: gs => insDesc g (sortDesc gs)

/-- TaskList.append (cotask.py lines 141-153): add the task to the first
group of its priority, or append a fresh group `[priority, 2, task]`, then
re-sort the group list by descending priority. -/
def appendTask (gl : List PriGroup) (t : TaskState) : List PriGroup :=
  let gl1 := match addToFirst gl t with
    | some l => l
    | none => gl ++ [⟨t.priority, 2, [t]⟩]
  sortDesc gl1

/-- A TaskList built by appending the registered tasks in order to the
initially empty pri_list. -/
def buildTL (regs : List TaskState) : List PriGroup :=
  regs.foldl appendTask []

/-- The inner loop of TaskList.rr_sched: schedule every task of a group in
order, threading the env counter. -/
def rrTasks (env : Nat → Env) : Nat → List TaskState → Option (List TaskState × Nat)
  | k, [] => some ([], k)
  | k, t :: ts =>
    match t.schedule (env k) with
    | none => none
    | some (_, t') =>
      match rrTasks env (k + 1) ts with
      | none => none
      | some (ts', k') => some (t' :: ts', k')

/-- TaskList.rr_sched (cotask.py lines 154-159): for each priority group
in list order, schedule every task of the group; all results discarded. -/
def rrGroups (env : Nat → Env) : Nat → List PriGroup → Option (List PriGroup × Nat)
  | k, [] => some ([], k)
  | k, g :: gs =>
    match rrTasks env k g.tasks with
    | none => none
    | some (ts', k1) =>
      match rrGroups env k1 gs with
      | none => none
      | some (gs', k2) => some ({ g with tasks := ts' } :: gs', k2)

/-- The while-loop of TaskList.pri_sched (cotask.py lines 163-173) on one
group, with `n` the number of iterations left (it enters with tries = 2
and length = len(tasks) + 2, so n starts at len(tasks)).  Each iteration
schedules the task the cursor points at, advances the cursor with wrap
back to 2, and returns the resumed task's name the moment an attempt
returns true. -/
def priLoop (env : Nat → Env) : Nat → Nat → PriGroup → Option (PriGroup × Nat × Option String)
  | 0, k, g => some (g, k, none)
  | n + 1, k, g =>
    match g.tasks[g.cursor - 2]? with
    | none => none
    | some t =>
      match t.schedule (env k) with
      | none => none
      | some (ran, t') =>
        let tasks' := g.tasks.set (g.cursor - 2) t'
        let c1 := g.cursor + 1
        let cursor' := if c1 ≥ g.tasks.length + 2 then 2 else c1
        let g' : PriGroup := ⟨g.pri, cursor', tasks'⟩
        if ran then some (g', k + 1, some t.name)
        else priLoop env n (k + 1) g'

/-- TaskList.pri_sched (cotask.py lines 161-173): try the groups in list
order (highest priority first, by the append invariant); the first group
in which an attempt succeeds ends the call, the groups after it are not
touched.  Returns the resumed task's name and its group's priority. -/
def priGroups (env : Nat → Env) : Nat → List PriGroup →
    Option (List PriGroup × Nat × Option (String × Int))
  | k, [] => some ([], k, none)
  | k, g :: gs =>
    match priLoop env g.tasks.length k g with
    | none => none
    | some (g', k', some nm) => some (g' :: gs, k', some (nm, g.pri))
    | some (g', k', none) =>
      match priGroups env k' gs with
      | none => none
      | some (gs', k'', r) => some (g' :: gs', k'', r)

/-- Re-arm every task of a group (model of the external events that make
perpetually-ready tasks ready again between dispatcher calls). -/
def reArmG (g : PriGroup) : PriGroup :=
  { g with tasks := g.tasks.map (fun t => { t with go_flag := true }) }

/-- Successive pri_sched calls on a single-group task list, re-arming all
tasks between calls; collects the resumed task names in order. -/
def priCalls (env : Nat → Env) : Nat → Nat → PriGroup → List String
  | 0, _, _ => []
  | s + 1, k, g =>
    match priGroups env k [g] with
    | some (g' :: _, k', some (nm, _)) => nm :: priCalls env s k' (reArmG g')
    | _ => []

/-- Well-formed task: a periodic task has a deadline (Task.__init__
establishes this; only set_period can break it). -/
def WFTask (t : TaskState) : Prop := t.period = none ∨ t.next_run.isSome

instance : DecidablePred WFTask := fun t => by unfold WFTask; infer_instance

/-- Sum of generator positions: total number of task resumptions so far. -/
def genSumT (ts : List TaskState) : Nat := (ts.map (fun t => t.gen_count)).sum

/-- Total resumptions across a whole pri_list. -/
def genSumG (gl : List PriGroup) : Nat := (gl.map (fun g => genSumT g.tasks)).sum

/-- Total number of tasks registered in a pri_list. -/
def numTasks (gl : List PriGroup) : Nat := (gl.map (fun g => g.tasks.length)).sum

/-- All tasks of a pri_list, in dispatch order (groups in list order,
tasks of a group in order). -/
def flattenTL (gl : List PriGroup) : List TaskState :=
  gl.flatMap (fun g => g.tasks)

/-- The registered tasks holding a given priority, in order. -/
def filterPri (p : Int) (ts : List TaskState) : List TaskState :=
  ts.filter (fun t => t.priority == p)

/-! ## Task.schedule characterization -/

lemma ready_cases (now : Int) (t : TaskState) :
    (t.period.isSome ∧ t.next_run = none ∧ t.ready now = none) ∨
    t.ready now = some (t.go_flag, t) ∨
    (∃ t', t.ready now = some (true, t') ∧ t'.period = t.period ∧
      t'.next_run.isSome ∧ t'.go_flag = true ∧ t'.name = t.name ∧
      t'.priority = t.priority ∧ t'.gen_count = t.gen_count) := by
  unfold TaskState.ready
  cases hper : t.period with
  | none => exact Or.inr (Or.inl rfl)
  | some per =>
    cases hnr : t.next_run with
    | none => exact Or.inl ⟨rfl, rfl, rfl⟩
    | some nr =>
      dsimp only
      by_cases hl : ticksDiff now nr > 0
      · rw [if_pos hl]
        refine Or.inr (Or.inr ⟨_, rfl, ?_, ?_, ?_, ?_, ?_, ?_⟩) <;>
          (split_ifs <;> simp [hper])
      · rw [if_neg hl]
        exact Or.inr (Or.inl rfl)

lemma schedule_spec (e : Env) (t : TaskState) (h : WFTask t) :
    ∃ r t', t.schedule e = some (r, t') ∧
      t'.name = t.name ∧ t'.priority = t.priority ∧ t'.period = t.period ∧
      WFTask t' ∧ t'.gen_count = t.gen_count + (if r then 1 else 0) ∧
      (r = false → t' = t) ∧
      (t.period = none → r = t.go_flag) ∧
      (r = true → t'.go_flag = false) := by
  have hready : ∃ r0 t0, t.ready e.now = some (r0, t0) ∧ t0.name = t.name ∧
      t0.priority = t.priority ∧ t0.period = t.period ∧ WFTask t0 ∧
      t0.gen_count = t.gen_count ∧ (r0 = false → t0 = t) ∧
      (t.period = none → r0 = t.go_flag) := by
    rcases ready_cases e.now t with ⟨hps, hnone, _⟩ | heq | ⟨t', heq, h1, h2, _, h4, h5, h6⟩
    · exfalso
      rcases h with hpn | hns
      · rw [hpn] at hps; simp at hps
      · rw [hnone] at hns; simp at hns
    · exact ⟨t.go_flag, t, heq, rfl, rfl, rfl, h, rfl, fun _ => rfl, fun _ => rfl⟩
    · refine ⟨true, t', heq, h4, h5, h1, Or.inr h2, h6, ?_, ?_⟩
      · intro hcontra; exact absurd hcontra (by simp)
      · intro hpn
        unfold TaskState.ready at heq
        rw [hpn] at heq
        simp at heq
        exact heq.1.symm
  obtain ⟨r0, t0, hr, hnm, hpr, hpe, hwf, hgc, hfalse, hpn⟩ := hready
  unfold TaskState.schedule
  rw [hr]
  cases r0 with
  | false =>
    refine ⟨false, t0, by simp, hnm, hpr, hpe, hwf, by simp [hgc], hfalse, ?_, by simp⟩
    intro hper
    simp [hpn hper]
  | true =>
    dsimp only
    rw [if_pos (rfl : true = true)]
    refine ⟨true, _, rfl, ?_, ?_, ?_, ?_, ?_, by simp, ?_, ?_⟩
    · split_ifs <;> simp [hnm]
    · split_ifs <;> simp [hpr]
    · split_ifs <;> simp [hpe]
    · unfold WFTask at hwf ⊢
      split_ifs <;> simpa using hwf
    · simp only [if_pos (rfl : true = true)]
      split_ifs <;> simp [hgc]
    · intro hper; simp [hpn hper]
    · intro _; split_ifs <;> rfl

/-! ## pri_sched lemmas -/

lemma set_getElem_self {α : Type} (l : List α) (i : Nat) (a : α)
    (h : l[i]? = some a) : l.set i a = l := by
  induction l generalizing i with
  | nil => simp at h
  | cons x xs ih =>
    cases i with
    | zero =>
      simp only [List.getElem?_cons_zero, Option.some.injEq] at h
      rw [← h]
      rfl
    | succ j =>
      simp only [List.getElem?_cons_succ] at h
      simp only [List.set_cons_succ]
      rw [ih j h]

lemma cursorShift (c len d : Nat) (h1 : 2 ≤ c) (h2 : c - 2 < len) :
    (((if c + 1 ≥ len + 2 then 2 else c + 1) - 2) + d) % len
      = (c - 2 + (d + 1)) % len := by
  split_ifs with hcase
  · have he : c - 2 + (d + 1) = len + d := by omega
    rw [he, Nat.add_mod_left]
    simp
  · have he : c + 1 - 2 + d = c - 2 + (d + 1) := by omega
    rw [he]

lemma cursorSucc (c len : Nat) (h1 : 2 ≤ c) (h2 : c - 2 < len) :
    (if c + 1 ≥ len + 2 then 2 else c + 1) = ((c - 2 + 1) % len) + 2 := by
  split_ifs with hcase
  · have he : c - 2 + 1 = len := by omega
    rw [he, Nat.mod_self]
  · rw [Nat.mod_eq_of_lt (by omega)]
    omega

lemma cursorRange (c len : Nat) (h1 : 2 ≤ c) (h2 : c - 2 < len) :
    2 ≤ (if c + 1 ≥ len + 2 then 2 else c + 1) ∧
      (if c + 1 ≥ len + 2 then 2 else c + 1) - 2 < len := by
  split_ifs <;> omega

lemma priLoop_run (env : Nat → Env) (n : Nat) :
    ∀ (k : Nat) (g : PriGroup), (∀ t ∈ g.tasks, WFTask t) →
    2 ≤ g.cursor → g.cursor - 2 < g.tasks.length → n ≤ g.tasks.length →
    (∃ g'' k'', priLoop env n k g = some (g'', k'', none) ∧
      g''.pri = g.pri ∧ g''.tasks = g.tasks ∧
      g''.cursor = ((g.cursor - 2 + n) % g.tasks.length) + 2 ∧
      k'' = k + n ∧
      (∀ d, d < n → ∀ t,
        g.tasks[(g.cursor - 2 + d) % g.tasks.length]? = some t →
        t.schedule (env (k + d)) = some (false, t))) ∨
    (∃ g' k' nm a, priLoop env n k g = some (g', k', some nm) ∧ a < n ∧
      (∀ d, d < a → ∀ t,
        g.tasks[(g.cursor - 2 + d) % g.tasks.length]? = some t →
        t.schedule (env (k + d)) = some (false, t)) ∧
      (∃ t t', g.tasks[(g.cursor - 2 + a) % g.tasks.length]? = some t ∧
        t.schedule (env (k + a)) = some (true, t') ∧ nm = t.name ∧
        g' = ⟨g.pri, ((g.cursor - 2 + a + 1) % g.tasks.length) + 2,
          g.tasks.set ((g.cursor - 2 + a) % g.tasks.length) t'⟩ ∧
        k' = k + a + 1)) := by
  induction n with
  | zero =>
    intro k g _ h1 h2 _
    left
    refine ⟨g, k, rfl, rfl, rfl, ?_, rfl, by omega⟩
    have hmm : (g.cursor - 2 + 0) % g.tasks.length = g.cursor - 2 := by
      simp [Nat.mod_eq_of_lt h2]
    omega
  | succ n ih =>
    intro k g hWF h1 h2 hn
    have hlen : 0 < g.tasks.length := by omega
    have hmod0 : (g.cursor - 2 + 0) % g.tasks.length = g.cursor - 2 := by
      rw [Nat.add_zero, Nat.mod_eq_of_lt h2]
    have ht : g.tasks[g.cursor - 2]? = some (g.tasks[g.cursor - 2]) :=
      List.getElem?_eq_getElem h2
    set t := g.tasks[g.cursor - 2] with htdef
    have htmem : t ∈ g.tasks := List.getElem_mem h2
    obtain ⟨r, t', hsched, hnm', hpr', hpe', hwf', hgc', hfalse', _, _⟩ :=
      schedule_spec (env k) t (hWF t htmem)
    rw [show priLoop env (n + 1) k g =
      (match g.tasks[g.cursor - 2]? with
       | none => none
       | some t =>
         match t.schedule (env k) with
         | none => none
         | some (ran, t') =>
           let tasks' := g.tasks.set (g.cursor - 2) t'
           let c1 := g.cursor + 1
           let cursor' := if c1 ≥ g.tasks.length + 2 then 2 else c1
           let g' : PriGroup := ⟨g.pri, cursor', tasks'⟩
           if ran then some (g', k + 1, some t.name)
           else priLoop env n (k + 1) g') from rfl]
    rw [ht]
    dsimp only
    rw [hsched]
    dsimp only
    cases r with
    | true =>
      right
      rw [if_pos rfl]
      refine ⟨_, _, t.name, 0, rfl, by omega, ?_, t, t', ?_, ?_, rfl, ?_, by omega⟩
      · intro d hd
        omega
      · rw [hmod0]
        exact ht
      · have : k + 0 = k := by omega
        rw [this]
        exact hsched
      · have hc := cursorSucc g.cursor g.tasks.length h1 h2
        have e1 : (g.cursor - 2 + 0 + 1) % g.tasks.length
            = (g.cursor - 2 + 1) % g.tasks.length := by
          congr 1
        rw [hmod0, e1, ← hc]
    | false =>
      rw [if_neg (by simp)]
      have ht'eq : t' = t := hfalse' rfl
      rw [ht'eq, set_getElem_self _ _ _ ht]
      rw [ht'eq] at hsched
      have hcr := cursorRange g.cursor g.tasks.length h1 h2
      have hres := ih (k + 1)
        ⟨g.pri, if g.cursor + 1 ≥ g.tasks.length + 2 then 2 else g.cursor + 1,
          g.tasks⟩ hWF hcr.1 hcr.2 (show n ≤ g.tasks.length from by omega)
      have hshift : ∀ d : Nat,
          (((if g.cursor + 1 ≥ g.tasks.length + 2 then 2 else g.cursor + 1) - 2)
            + d) % g.tasks.length = (g.cursor - 2 + (d + 1)) % g.tasks.length :=
        fun d => cursorShift g.cursor g.tasks.length d h1 h2
      rcases hres with ⟨g'', k'', hrun, hp, hts, hcur, hk, hfails⟩ |
        ⟨g', k', nm, a, hrun, ha, hfails, t2, t2', hidx, hs2, hnm2, hg', hk'⟩
      · dsimp only at hrun hp hts hcur hk hfails
        left
        refine ⟨g'', k'', hrun, hp, hts, ?_, by omega, ?_⟩
        · rw [hcur, hshift n]
        · intro d hd u hu
          cases d with
          | zero =>
            rw [hmod0, ht] at hu
            simp only [Option.some.injEq] at hu
            rw [← hu, Nat.add_zero]
            exact hsched
          | succ d' =>
            have := hfails d' (by omega) u (by rw [hshift d']; exact hu)
            rw [show k + 1 + d' = k + (d' + 1) from by omega] at this
            exact this
      · dsimp only at hrun hfails hidx hs2 hg' hk'
        right
        refine ⟨g', k', nm, a + 1, hrun, by omega, ?_, t2, t2', ?_, ?_, hnm2,
          ?_, by omega⟩
        · intro d hd u hu
          cases d with
          | zero =>
            rw [hmod0, ht] at hu
            simp only [Option.some.injEq] at hu
            rw [← hu, Nat.add_zero]
            exact hsched
          | succ d' =>
            have := hfails d' (by omega) u (by rw [hshift d']; exact hu)
            rw [show k + 1 + d' = k + (d' + 1) from by omega] at this
            exact this
        · rw [← hshift a]
          exact hidx
        · rw [show k + (a + 1) = k + 1 + a from by omega]
          exact hs2
        · rw [hg']
          have e1 : (((if g.cursor + 1 ≥ g.tasks.length + 2 then 2
                else g.cursor + 1) - 2) + a + 1) % g.tasks.length
              = (g.cursor - 2 + (a + 1) + 1) % g.tasks.length := by
            rw [Nat.add_assoc _ a 1, hshift (a + 1)]
            congr 1
          rw [e1, hshift a]

lemma fails_cover (env : Nat → Env) (g : PriGroup) (k : Nat)
    (_h1 : 2 ≤ g.cursor) (h2 : g.cursor - 2 < g.tasks.length)
    (hfails : ∀ d, d < g.tasks.length → ∀ t,
      g.tasks[(g.cursor - 2 + d) % g.tasks.length]? = some t →
      t.schedule (env (k + d)) = some (false, t))
    (hnp : ∀ t ∈ g.tasks, t.period = none) :
    ∀ t ∈ g.tasks, t.go_flag = false := by
  intro t htmem
  have hlen : 0 < g.tasks.length := by omega
  obtain ⟨i, hi⟩ := List.mem_iff_getElem?.mp htmem
  have hilt : i < g.tasks.length := by
    by_contra hcon
    rw [List.getElem?_eq_none (by omega)] at hi
    simp at hi
  set c := g.cursor - 2 with hc
  set len := g.tasks.length with hlendef
  have hd : ((c + (i + len - c) % len) % len) = i := by
    rw [Nat.add_comm c _, modAdd]
    have : i + len - c + c = i + len := by omega
    rw [this, Nat.add_mod_right, Nat.mod_eq_of_lt hilt]
  have hsched := hfails ((i + len - c) % len) (Nat.mod_lt _ hlen) t
    (by rw [hd]; exact hi)
  obtain ⟨r, t', heq, _, _, _, _, _, _, hpn, _⟩ :=
    schedule_spec (env (k + (i + len - c) % len)) t (Or.inl (hnp t htmem))
  rw [hsched] at heq
  simp only [Option.some.injEq, Prod.mk.injEq] at heq
  rw [← hpn (hnp t htmem), heq.1]

lemma numTasks_cons (g : PriGroup) (gs : List PriGroup) :
    numTasks (g :: gs) = g.tasks.length + numTasks gs := by
  simp [numTasks]

lemma priGroups_run (env : Nat → Env) (gl : List PriGroup) : ∀ k : Nat,
    (∀ g ∈ gl, (∀ t ∈ g.tasks, WFTask t) ∧ 2 ≤ g.cursor ∧
      g.cursor - 2 < g.tasks.length) →
    (priGroups env k gl = some (gl, k + numTasks gl, none) ∧
      (∀ g ∈ gl, (∀ t ∈ g.tasks, t.period = none) →
        ∀ t ∈ g.tasks, t.go_flag = false)) ∨
    (∃ j g g' nm a k', gl[j]? = some g ∧
      priGroups env k gl = some (gl.set j g', k', some (nm, g.pri)) ∧
      (∀ m gm, m < j → gl[m]? = some gm →
        (∀ t ∈ gm.tasks, t.period = none) → ∀ t ∈ gm.tasks, t.go_flag = false) ∧
      a < g.tasks.length ∧
      (∀ d, d < a → ∀ t0,
        g.tasks[(g.cursor - 2 + d) % g.tasks.length]? = some t0 →
        t0.schedule (env (k + numTasks (gl.take j) + d)) = some (false, t0)) ∧
      (∃ t t', g.tasks[(g.cursor - 2 + a) % g.tasks.length]? = some t ∧
        nm = t.name ∧
        t.schedule (env (k + numTasks (gl.take j) + a)) = some (true, t') ∧
        g' = ⟨g.pri, ((g.cursor - 2 + a + 1) % g.tasks.length) + 2,
          g.tasks.set ((g.cursor - 2 + a) % g.tasks.length) t'⟩) ∧
      k' = k + numTasks (gl.take j) + a + 1) := by
  induction gl with
  | nil =>
    intro k _
    left
    refine ⟨?_, by intro g hg; simp at hg⟩
    show some ([], k, none) = some ([], k + numTasks [], none)
    simp [numTasks]
  | cons g gs ih =>
    intro k hWFs
    obtain ⟨hWFg, h1, h2⟩ := hWFs g (by simp)
    have hWFgs : ∀ g0 ∈ gs, (∀ t ∈ g0.tasks, WFTask t) ∧ 2 ≤ g0.cursor ∧
        g0.cursor - 2 < g0.tasks.length :=
      fun g0 hg0 => hWFs g0 (by simp [hg0])
    rcases priLoop_run env g.tasks.length k g hWFg h1 h2 (le_refl _) with
      ⟨g'', k'', hrun, hp, hts, hcur, hk, hfails⟩ |
      ⟨gL, kL, nm, a, hrun, ha, hfl, t, t', hidx, hs, hnm, hgL, hkL⟩
    · have hcureq : g''.cursor = g.cursor := by
        rw [hcur, Nat.add_mod_right, Nat.mod_eq_of_lt h2]
        omega
      have hg''eq : g'' = g := by
        calc g'' = ⟨g''.pri, g''.cursor, g''.tasks⟩ := rfl
        _ = ⟨g.pri, g.cursor, g.tasks⟩ := by rw [hp, hts, hcureq]
        _ = g := rfl
      rw [hg''eq] at hrun
      subst hk
      have hcover := fails_cover env g k h1 h2 hfails
      rcases ih (k + g.tasks.length) hWFgs with ⟨hrun2, hcov2⟩ |
        ⟨j, gj, gj', nm, a, k', hj, hrun2, hbefore, ha, hdfails, tfacts, hk'⟩
      · left
        constructor
        · show (match priLoop env g.tasks.length k g with
            | none => none
            | some (g', k', some nm) => some (g' :: gs, k', some (nm, g.pri))
            | some (g', k', none) =>
              match priGroups env k' gs with
              | none => none
              | some (gs', k'', r) => some (g' :: gs', k'', r)) =
            some (g :: gs, k + numTasks (g :: gs), none)
          rw [hrun]
          dsimp only
          rw [hrun2]
          dsimp only
          rw [numTasks_cons, Nat.add_assoc]
        · intro g0 hg0
          rcases List.mem_cons.mp hg0 with heq | hmem
          · rw [heq]; exact hcover
          · exact hcov2 g0 hmem
      · right
        refine ⟨j + 1, gj, gj', nm, a, k', by simpa using hj, ?_, ?_, ha, ?_,
          ?_, ?_⟩
        · show (match priLoop env g.tasks.length k g with
            | none => none
            | some (g', k', some nm) => some (g' :: gs, k', some (nm, g.pri))
            | some (g', k', none) =>
              match priGroups env k' gs with
              | none => none
              | some (gs', k'', r) => some (g' :: gs', k'', r)) =
            some ((g :: gs).set (j + 1) gj', k', some (nm, gj.pri))
          rw [hrun]
          dsimp only
          rw [hrun2]
          rfl
        · intro m gm hm hgm hnp
          cases m with
          | zero =>
            simp only [List.getElem?_cons_zero, Option.some.injEq] at hgm
            subst hgm
            exact hcover hnp
          | succ m' =>
            simp only [List.getElem?_cons_succ] at hgm
            exact hbefore m' gm (by omega) hgm hnp
        · intro d hd t0 ht0
          have hstep := hdfails d hd t0 ht0
          rw [show k + g.tasks.length + numTasks (gs.take j) + d
            = k + numTasks ((g :: gs).take (j + 1)) + d from by
              simp [numTasks_cons]; omega] at hstep
          exact hstep
        · obtain ⟨t, t', hi1, hi2, hi3, hi4⟩ := tfacts
          refine ⟨t, t', hi1, hi2, ?_, hi4⟩
          rw [show k + numTasks ((g :: gs).take (j + 1)) + a
            = k + g.tasks.length + numTasks (gs.take j) + a from by
              simp [numTasks_cons]; omega]
          exact hi3
        · rw [hk']
          rw [show numTasks ((g :: gs).take (j + 1))
            = g.tasks.length + numTasks (gs.take j) from by
              simp [numTasks_cons]]
          omega
    · right
      refine ⟨0, g, gL, nm, a, kL, by simp, ?_,
        (by intro m gm hm; exact absurd hm (by omega)), ha, ?_,
        ⟨t, t', hidx, hnm, ?_, hgL⟩, ?_⟩
      · show (match priLoop env g.tasks.length k g with
          | none => none
          | some (g', k', some nm) => some (g' :: gs, k', some (nm, g.pri))
          | some (g', k', none) =>
            match priGroups env k' gs with
            | none => none
            | some (gs', k'', r) => some (g' :: gs', k'', r)) =
          some ((g :: gs).set 0 gL, kL, some (nm, g.pri))
        rw [hrun]
        rfl
      · intro d hd t0 ht0
        have hstep := hfl d hd t0 ht0
        rw [show k + numTasks ((g :: gs).take 0) + d = k + d from by
          simp [numTasks]]
        exact hstep
      · rw [show k + numTasks ((g :: gs).take 0) + a = k + a from by
          simp [numTasks]]
        exact hs
      · rw [show numTasks ((g :: gs).take 0) = 0 from by simp [numTasks]]
        omega

lemma genSumT_set (ts : List TaskState) (i : Nat) (t t' : TaskState)
    (hi : ts[i]? = some t) (hg : t'.gen_count = t.gen_count + 1) :
    genSumT (ts.set i t') = genSumT ts + 1 := by
  induction ts generalizing i with
  | nil => simp at hi
  | cons x xs ih =>
    cases i with
    | zero =>
      simp only [List.getElem?_cons_zero, Option.some.injEq] at hi
      subst hi
      simp [genSumT, hg]
      omega
    | succ j =>
      simp only [List.getElem?_cons_succ] at hi
      simp only [List.set_cons_succ]
      have := ih j hi
      simp [genSumT] at this ⊢
      omega

lemma genSumG_set (gl : List PriGroup) (j : Nat) (g g' : PriGroup)
    (hj : gl[j]? = some g) (hg : genSumT g'.tasks = genSumT g.tasks + 1) :
    genSumG (gl.set j g') = genSumG gl + 1 := by
  induction gl generalizing j with
  | nil => simp at hj
  | cons x xs ih =>
    cases j with
    | zero =>
      simp only [List.getElem?_cons_zero, Option.some.injEq] at hj
      subst hj
      simp [genSumG, hg]
      omega
    | succ m =>
      simp only [List.getElem?_cons_succ] at hj
      simp only [List.set_cons_succ]
      have := ih m hj
      simp [genSumG] at this ⊢
      omega


lemma map_name_set (ts : List TaskState) (i : Nat) (t' : TaskState) :
    (ts.set i t').map (fun t => t.name)
      = (ts.map (fun t => t.name)).set i t'.name := by
  induction ts generalizing i with
  | nil => simp
  | cons x xs ih =>
    cases i with
    | zero => simp
    | succ j => simp [ih j]

lemma priCalls_rotation (env : Nat → Env) :
    ∀ (steps k : Nat) (g : PriGroup),
    (∀ t ∈ g.tasks, t.period = none) →
    (∀ t ∈ g.tasks, t.go_flag = true) →
    2 ≤ g.cursor → g.cursor - 2 < g.tasks.length →
    (priCalls env steps k g).length = steps ∧
    ∀ s, s < steps →
      (priCalls env steps k g)[s]? =
        (g.tasks.map (fun t => t.name))[(g.cursor - 2 + s) % g.tasks.length]? := by
  intro steps
  induction steps with
  | zero =>
    intro k g _ _ _ _
    exact ⟨rfl, by intro s hs; omega⟩
  | succ steps ih =>
    intro k g hnp hready h1 h2
    have hlen : 0 < g.tasks.length := by omega
    have hmodz : (g.cursor - 2 + 0) % g.tasks.length = g.cursor - 2 := by
      rw [Nat.add_zero, Nat.mod_eq_of_lt h2]
    have hWFs : ∀ g0 ∈ [g], (∀ t ∈ g0.tasks, WFTask t) ∧ 2 ≤ g0.cursor ∧
        g0.cursor - 2 < g0.tasks.length := by
      intro g0 hg0
      simp at hg0
      subst hg0
      exact ⟨fun t ht => Or.inl (hnp t ht), h1, h2⟩
    rcases priGroups_run env [g] k hWFs with ⟨_, hcov⟩ |
      ⟨j, gj, gj', nm, a, k', hj, hrun, _, ha, hdfails,
        ⟨t, t', hidx, hnm, hs, hgj'⟩, _⟩
    · exfalso
      obtain ⟨t0, ht0⟩ := List.exists_mem_of_length_pos hlen
      have := hcov g (by simp) hnp t0 ht0
      rw [hready t0 ht0] at this
      simp at this
    · have hjz : j = 0 := by
        cases j with
        | zero => rfl
        | succ m => simp at hj
      subst hjz
      have hgjg : g = gj := by
        simp only [List.getElem?_cons_zero, Option.some.injEq] at hj
        exact hj
      subst hgjg
      have ha0 : a = 0 := by
        by_contra hcon
        obtain ⟨t0, r0, t0', ht0, heq0, _, _, _, _, _, _, hpn0, _⟩ :
            ∃ t0 r0 t0', g.tasks[g.cursor - 2]? = some t0 ∧
              t0.schedule (env (k + numTasks ([g].take 0) + 0)) = some (r0, t0') ∧
              t0'.name = t0.name ∧ t0'.priority = t0.priority ∧
              t0'.period = t0.period ∧ WFTask t0' ∧
              t0'.gen_count = t0.gen_count + (if r0 then 1 else 0) ∧
              (r0 = false → t0' = t0) ∧ (t0.period = none → r0 = t0.go_flag) ∧
              (r0 = true → t0'.go_flag = false) := by
          have hti : g.tasks[g.cursor - 2]? =
              some (g.tasks[g.cursor - 2]) := List.getElem?_eq_getElem h2
          set t0 := g.tasks[g.cursor - 2]
          have htm : t0 ∈ g.tasks := List.getElem_mem h2
          obtain ⟨r0, t0', a1, a2, a3, a4, a5, a6, a7, a8, a9⟩ :=
            schedule_spec (env (k + numTasks ([g].take 0) + 0)) t0
              (Or.inl (hnp t0 htm))
          exact ⟨t0, r0, t0', hti, a1, a2, a3, a4, a5, a6, a7, a8, a9⟩
        have hfail0 := hdfails 0 (by omega) t0 (by rw [hmodz]; exact ht0)
        rw [hfail0] at heq0
        simp only [Option.some.injEq, Prod.mk.injEq] at heq0
        have hgo : t0.go_flag = true := hready t0 (List.getElem?_mem ht0)
        have : r0 = t0.go_flag :=
          hpn0 (hnp t0 (List.getElem?_mem ht0))
        rw [hgo] at this
        rw [← heq0.1] at this
        simp at this
      subst ha0
      rw [hmodz] at hidx
      have htm : t ∈ g.tasks := List.getElem?_mem hidx
      obtain ⟨r1, t1', hseq, hnmq, _, hpeq, _, _, _, _, _⟩ :=
        schedule_spec (env (k + numTasks ([g].take 0) + 0)) t
          (Or.inl (hnp t htm))
      rw [hs] at hseq
      simp only [Option.some.injEq, Prod.mk.injEq] at hseq
      obtain ⟨hr1, ht1'⟩ := hseq
      rw [← ht1'] at hnmq hpeq
      simp only [List.set_cons_zero] at hrun
      have hcall : priCalls env (steps + 1) k g
          = nm :: priCalls env steps k' (reArmG gj') := by
        show (match priGroups env k [g] with
          | some (g' :: _, k', some (nm, _)) =>
            nm :: priCalls env steps k' (reArmG g')
          | _ => []) = nm :: priCalls env steps k' (reArmG gj')
        rw [hrun]
      set g2 := reArmG gj' with hg2
      have hg2tasks : g2.tasks =
          (g.tasks.set (g.cursor - 2) t').map (fun u => { u with go_flag := true }) := by
        rw [hg2, hgj', reArmG]
        simp only
        congr 1
        rw [hmodz]
      have hg2cursor : g2.cursor = ((g.cursor - 2 + 1) % g.tasks.length) + 2 := by
        rw [hg2, hgj', reArmG]
      have hg2len : g2.tasks.length = g.tasks.length := by
        rw [hg2tasks]
        simp
      have hg2names : g2.tasks.map (fun u => u.name)
          = g.tasks.map (fun u => u.name) := by
        rw [hg2tasks, List.map_map]
        have : ((fun u => u.name) ∘ (fun u => { u with go_flag := true }))
            = fun u : TaskState => u.name := rfl
        rw [this, map_name_set, hnmq]
        apply set_getElem_self
        rw [List.getElem?_map, hidx]
        rfl
      have hg2np : ∀ u ∈ g2.tasks, u.period = none := by
        intro u hu
        rw [hg2tasks] at hu
        obtain ⟨v, hv, hveq⟩ := List.mem_map.mp hu
        rcases List.mem_or_eq_of_mem_set hv with hvm | hveq2
        · rw [← hveq]
          exact hnp v hvm
        · rw [← hveq, hveq2]
          show t'.period = none
          rw [hpeq]
          exact hnp t htm
      have hg2ready : ∀ u ∈ g2.tasks, u.go_flag = true := by
        intro u hu
        rw [hg2tasks] at hu
        obtain ⟨v, _, hveq⟩ := List.mem_map.mp hu
        rw [← hveq]
      have hg2c1 : 2 ≤ g2.cursor := by rw [hg2cursor]; omega
      have hg2c2 : g2.cursor - 2 < g2.tasks.length := by
        rw [hg2cursor, hg2len]
        simp
        exact Nat.mod_lt _ hlen
      obtain ⟨ihlen, ihspec⟩ := ih k' g2 hg2np hg2ready hg2c1 hg2c2
      constructor
      · rw [hcall]
        simp [ihlen]
      · intro s hslt
        rw [hcall]
        cases s with
        | zero =>
          rw [hmodz]
          simp only [List.getElem?_cons_zero]
          rw [hnm]
          rw [List.getElem?_map, hidx]
          rfl
        | succ s' =>
          simp only [List.getElem?_cons_succ]
          rw [ihspec s' (by omega), hg2names, hg2cursor, hg2len]
          congr 1
          rw [Nat.add_sub_cancel, modAdd]
          congr 1
          omega

/-- C5 (confirmed).  For every well-formed pri_list, one pri_sched call:
(1) resumes at most one task (the total generator-resumption count rises
by exactly one when a task ran, zero otherwise); if nothing ran, the list
is unchanged after exactly one attempt per task; (2) when a task ran, only
its own group changed (groups before it were swept and left unchanged,
groups after it were never touched - the call returned immediately), the
resumed task sits `a` attempts past the group's rotating cursor, and that
cursor advanced by a+1 positions modulo the group size (one per attempt,
the successful attempt included); (3) with go-flag-driven (non-periodic)
tasks and the descending-priority ordering append maintains, a task is
never resumed while any task of a strictly higher-priority group is ready;
and (4) over successive calls on one group of perpetually re-armed tasks,
the resumed tasks follow the cursor in strict rotation. -/
theorem C5_priority_dispatch (env : Nat → Env) (k : Nat) (gl : List PriGroup)
    (hWF : ∀ g ∈ gl, (∀ t ∈ g.tasks, WFTask t) ∧ 2 ≤ g.cursor ∧
      g.cursor - 2 < g.tasks.length) :
    (∃ gl' k' res, priGroups env k gl = some (gl', k', res) ∧
      genSumG gl' = genSumG gl + (if res.isSome then 1 else 0) ∧
      (res = none → gl' = gl ∧ k' = k + numTasks gl) ∧
      (∀ nm p, res = some (nm, p) →
        ∃ j g g' a, gl[j]? = some g ∧ g.pri = p ∧ gl' = gl.set j g' ∧
          g'.pri = g.pri ∧ a < g.tasks.length ∧
          (∃ t, g.tasks[(g.cursor - 2 + a) % g.tasks.length]? = some t ∧
            nm = t.name) ∧
          g'.cursor = ((g.cursor - 2 + a + 1) % g.tasks.length) + 2 ∧
          k' = k + numTasks (gl.take j) + a + 1) ∧
      ((∀ g ∈ gl, ∀ t ∈ g.tasks, t.period = none) →
        gl.Pairwise (fun g1 g2 => g2.pri < g1.pri) →
        ∀ nm p, res = some (nm, p) →
          ∀ g ∈ gl, p < g.pri → ∀ t ∈ g.tasks, t.go_flag = false)) ∧
    (∀ (g : PriGroup) (steps k0 : Nat),
      (∀ t ∈ g.tasks, t.period = none) → (∀ t ∈ g.tasks, t.go_flag = true) →
      2 ≤ g.cursor → g.cursor - 2 < g.tasks.length →
      ∀ s, s < steps → (priCalls env steps k0 g)[s]? =
        (g.tasks.map (fun t => t.name))[(g.cursor - 2 + s) % g.tasks.length]?) := by
  constructor
  · rcases priGroups_run env gl k hWF with ⟨hrun, _⟩ |
      ⟨j, g, g', nm, a, k', hj, hrun, hbefore, ha, _,
        ⟨t, t', hidx, hnm, hs, hg'⟩, hk'⟩
    · refine ⟨gl, k + numTasks gl, none, hrun, by simp, fun _ => ⟨rfl, rfl⟩,
        ?_, ?_⟩
      · intro nm p h
        exact absurd h (by simp)
      · intro _ _ nm p h
        exact absurd h (by simp)
    · have hgmem : g ∈ gl := List.getElem?_mem hj
      have htmem : t ∈ g.tasks := List.getElem?_mem hidx
      obtain ⟨r1, t1', hseq, _, _, _, _, hgq, _, _, _⟩ :=
        schedule_spec (env (k + numTasks (gl.take j) + a)) t
          ((hWF g hgmem).1 t htmem)
      rw [hs] at hseq
      simp only [Option.some.injEq, Prod.mk.injEq] at hseq
      obtain ⟨hr1, ht1'⟩ := hseq
      rw [← ht1', ← hr1] at hgq
      simp only [if_pos rfl] at hgq
      have hsum : genSumT g'.tasks = genSumT g.tasks + 1 := by
        rw [hg']
        exact genSumT_set g.tasks _ t t' hidx hgq
      refine ⟨gl.set j g', k', some (nm, g.pri), hrun, ?_, ?_, ?_, ?_⟩
      · simp only [Option.isSome_some, if_pos rfl]
        exact genSumG_set gl j g g' hj hsum
      · intro h
        exact absurd h (by simp)
      · intro nm0 p0 h
        simp only [Option.some.injEq, Prod.mk.injEq] at h
        refine ⟨j, g, g', a, hj, h.2, rfl, ?_, ha, ⟨t, hidx, ?_⟩, ?_, hk'⟩
        · rw [hg']
        · rw [← h.1]
          exact hnm
        · rw [hg']
      · intro hnpAll hsorted nm0 p0 h g0 hg0 hgt t0 ht0
        simp only [Option.some.injEq, Prod.mk.injEq] at h
        obtain ⟨m, hm⟩ := List.mem_iff_getElem?.mp hg0
        obtain ⟨hmlt, hmval⟩ := List.getElem?_eq_some.mp hm
        obtain ⟨hjlt, hjval⟩ := List.getElem?_eq_some.mp hj
        have hmj : m < j := by
          by_contra hcon
          rcases Nat.lt_or_ge j m with hlt | hge
          · have := (List.pairwise_iff_getElem.mp hsorted) j m hjlt hmlt hlt
            rw [hmval, hjval] at this
            rw [← h.2] at hgt
            omega
          · have : m = j := by omega
            subst this
            rw [hmval] at hjval
            subst hjval
            rw [← h.2] at hgt
            omega
        exact hbefore m g0 hmj hm (hnpAll g0 hg0) t0 ht0
  · intro g steps k0 hnp hready hc1 hc2 s hs
    exact (priCalls_rotation env steps k0 g hnp hready hc1 hc2).2 s hs

/-- A go-flag-driven task used in dispatcher witnesses. -/
def wTask (nm : String) (pri : Int) (go : Bool) : TaskState :=
  { (default : TaskState) with name := nm, priority := pri, go_flag := go }

/-- Two priority groups (priority 2 above priority 1) used in the C5
witness. -/
def wGl : List PriGroup :=
  [⟨2, 2, [wTask "A" 2 false]⟩, ⟨1, 2, [wTask "B1" 1 true, wTask "B2" 1 true]⟩]

/-- C5 witness: the theorem at a concrete two-group task list. -/
theorem C5_priority_dispatch_witness :
    (∀ g ∈ wGl, (∀ t ∈ g.tasks, WFTask t) ∧ 2 ≤ g.cursor ∧
      g.cursor - 2 < g.tasks.length) ∧
    ((∃ gl' k' res, priGroups (fun _ => ⟨0, 0, 0⟩) 0 wGl = some (gl', k', res) ∧
      genSumG gl' = genSumG wGl + (if res.isSome then 1 else 0) ∧
      (res = none → gl' = wGl ∧ k' = 0 + numTasks wGl) ∧
      (∀ nm p, res = some (nm, p) →
        ∃ j g g' a, wGl[j]? = some g ∧ g.pri = p ∧ gl' = wGl.set j g' ∧
          g'.pri = g.pri ∧ a < g.tasks.length ∧
          (∃ t, g.tasks[(g.cursor - 2 + a) % g.tasks.length]? = some t ∧
            nm = t.name) ∧
          g'.cursor = ((g.cursor - 2 + a + 1) % g.tasks.length) + 2 ∧
          k' = 0 + numTasks (wGl.take j) + a + 1) ∧
      ((∀ g ∈ wGl, ∀ t ∈ g.tasks, t.period = none) →
        wGl.Pairwise (fun g1 g2 => g2.pri < g1.pri) →
        ∀ nm p, res = some (nm, p) →
          ∀ g ∈ wGl, p < g.pri → ∀ t ∈ g.tasks, t.go_flag = false)) ∧
    (∀ (g : PriGroup) (steps k0 : Nat),
      (∀ t ∈ g.tasks, t.period = none) → (∀ t ∈ g.tasks, t.go_flag = true) →
      2 ≤ g.cursor → g.cursor - 2 < g.tasks.length →
      ∀ s, s < steps → (priCalls (fun _ => ⟨0, 0, 0⟩) steps k0 g)[s]? =
        (g.tasks.map (fun t => t.name))[(g.cursor - 2 + s) % g.tasks.length]?)) :=
  ⟨by decide, C5_priority_dispatch (fun _ => ⟨0, 0, 0⟩) 0 wGl (by decide)⟩

/-! ## append / build ordering lemmas (C6) -/

lemma insDesc_perm (g : PriGroup) (l : List PriGroup) :
    List.Perm (insDesc g l) (g :: l) := by
  induction l with
  | nil => rfl
  | cons e t ih =>
    rw [insDesc]
    split_ifs
    · rfl
    · exact List.Perm.trans (ih.cons e) (List.Perm.swap _ _ _)

lemma sortDesc_perm (l : List PriGroup) : List.Perm (sortDesc l) l := by
  induction l with
  | nil => rfl
  | cons g t ih =>
    rw [sortDesc]
    exact List.Perm.trans (insDesc_perm g _) (ih.cons g)

lemma insDesc_pairwise (g : PriGroup) (l : List PriGroup)
    (h : l.Pairwise (fun a b => b.pri ≤ a.pri)) :
    (insDesc g l).Pairwise (fun a b => b.pri ≤ a.pri) := by
  induction l with
  | nil => simp [insDesc]
  | cons e t ih =>
    rw [insDesc]
    obtain ⟨hel, htl⟩ := List.pairwise_cons.mp h
    split_ifs with hle
    · refine List.pairwise_cons.mpr ⟨?_, h⟩
      intro b hb
      rcases List.mem_cons.mp hb with hbe | hbt
      · rw [hbe]; exact hle
      · exact le_trans (hel b hbt) hle
    · refine List.pairwise_cons.mpr ⟨?_, ih htl⟩
      intro b hb
      have : b ∈ g :: t := (insDesc_perm g t).mem_iff.mp hb
      rcases List.mem_cons.mp this with hbg | hbt
      · rw [hbg]; omega
      · exact hel b hbt

lemma sortDesc_pairwise (l : List PriGroup) :
    (sortDesc l).Pairwise (fun a b => b.pri ≤ a.pri) := by
  induction l with
  | nil => simp [sortDesc]
  | cons g t ih => exact insDesc_pairwise g _ ih

lemma sortDesc_sorted_id (l : List PriGroup)
    (h : l.Pairwise (fun a b => b.pri < a.pri)) : sortDesc l = l := by
  induction l with
  | nil => rfl
  | cons g t ih =>
    obtain ⟨hgl, htl⟩ := List.pairwise_cons.mp h
    rw [sortDesc, ih htl]
    cases t with
    | nil => rfl
    | cons e t2 =>
      rw [insDesc, if_pos]
      exact le_of_lt (hgl e (by simp))

lemma addToFirst_none (gl : List PriGroup) (t : TaskState)
    (h : addToFirst gl t = none) : ∀ g ∈ gl, g.pri ≠ t.priority := by
  induction gl with
  | nil => intro g hg; simp at hg
  | cons x xs ih =>
    rw [addToFirst] at h
    split_ifs at h with hx
    intro g hg
    rcases List.mem_cons.mp hg with hgx | hgxs
    · rw [hgx]; exact hx
    · exact ih (by cases hax : addToFirst xs t with
        | none => rfl
        | some l => rw [hax] at h; simp at h) g hgxs

lemma addToFirst_some (gl : List PriGroup) (t : TaskState) (gl1 : List PriGroup)
    (h : addToFirst gl t = some gl1) :
    ∃ pre grp post, gl = pre ++ grp :: post ∧
      (∀ g ∈ pre, g.pri ≠ t.priority) ∧ grp.pri = t.priority ∧
      gl1 = pre ++ ({ grp with tasks := grp.tasks ++ [t] }) :: post := by
  induction gl generalizing gl1 with
  | nil => simp [addToFirst] at h
  | cons x xs ih =>
    rw [addToFirst] at h
    split_ifs at h with hx
    · simp only [Option.some.injEq] at h
      exact ⟨[], x, xs, rfl, by intro g hg; simp at hg, hx, h.symm⟩
    · cases hax : addToFirst xs t with
      | none => rw [hax] at h; simp at h
      | some l =>
        rw [hax] at h
        simp only [Option.map_some', Option.some.injEq] at h
        obtain ⟨pre, grp, post, he1, he2, he3, he4⟩ := ih l hax
        refine ⟨x :: pre, grp, post, by rw [he1]; rfl, ?_, he3, ?_⟩
        · intro g hg
          rcases List.mem_cons.mp hg with hgx | hgp
          · rw [hgx]; exact hx
          · exact he2 g hgp
        · rw [← h, he4]
          rfl

lemma flattenTL_append (l1 l2 : List PriGroup) :
    flattenTL (l1 ++ l2) = flattenTL l1 ++ flattenTL l2 := by
  simp [flattenTL]

lemma filterPri_append (p : Int) (l1 l2 : List TaskState) :
    filterPri p (l1 ++ l2) = filterPri p l1 ++ filterPri p l2 := by
  simp [filterPri]

lemma filter_flatten_eq (gl : List PriGroup)
    (hmp : ∀ g ∈ gl, ∀ u ∈ g.tasks, u.priority = g.pri) (p : Int) :
    filterPri p (flattenTL gl)
      = flattenTL (gl.filter (fun g => decide (g.pri = p))) := by
  induction gl with
  | nil => rfl
  | cons g gs ih =>
    have hmpg : ∀ u ∈ g.tasks, u.priority = g.pri := hmp g (by simp)
    have hmps : ∀ g0 ∈ gs, ∀ u ∈ g0.tasks, u.priority = g0.pri :=
      fun g0 h0 => hmp g0 (by simp [h0])
    have hflat : flattenTL (g :: gs) = g.tasks ++ flattenTL gs := by
      simp [flattenTL]
    rw [hflat, filterPri_append, ih hmps]
    by_cases hp : g.pri = p
    · have h1 : filterPri p g.tasks = g.tasks := by
        apply List.filter_eq_self.mpr
        intro u hu
        simp [hmpg u hu, hp]
      rw [h1, List.filter_cons_of_pos (by simp [hp])]
      simp [flattenTL]
    · have h1 : filterPri p g.tasks = [] := by
        apply List.filter_eq_nil_iff.mpr
        intro u hu
        simp [hmpg u hu, hp]
      rw [h1, List.filter_cons_of_neg (by simp [hp])]
      simp

lemma filter_groups_short (gl : List PriGroup)
    (hnd : (gl.map (fun g => g.pri)).Nodup) (p : Int) :
    (gl.filter (fun g => decide (g.pri = p))).length ≤ 1 := by
  induction gl with
  | nil => simp
  | cons g gs ih =>
    simp only [List.map_cons, List.nodup_cons] at hnd
    by_cases hp : g.pri = p
    · rw [List.filter_cons_of_pos (by simp [hp])]
      have h0 : gs.filter (fun g => decide (g.pri = p)) = [] := by
        apply List.filter_eq_nil_iff.mpr
        intro g0 hg0
        simp only [decide_eq_true_eq]
        intro hcon
        exact hnd.1 (by rw [hp, ← hcon]; exact List.mem_map_of_mem _ hg0)
      rw [h0]
      simp
    · rw [List.filter_cons_of_neg (by simp [hp])]
      exact ih hnd.2

lemma perm_eq_short {α : Type} (l l2 : List α) (h : List.Perm l l2)
    (hlen : l2.length ≤ 1) : l = l2 := by
  cases l2 with
  | nil => exact h.eq_nil
  | cons a rest =>
    cases rest with
    | nil => exact List.perm_singleton.mp h
    | cons b rest2 => simp at hlen

lemma flatten_perm (gl1 gl2 : List PriGroup) (h : List.Perm gl1 gl2) :
    List.Perm (flattenTL gl1) (flattenTL gl2) :=
  List.Perm.flatMap_right _ h

lemma pris_nodup_of_pairwise (gl : List PriGroup)
    (h : gl.Pairwise (fun a b => b.pri < a.pri)) :
    (gl.map (fun g => g.pri)).Nodup := by
  rw [List.Nodup, List.pairwise_map]
  exact h.imp (fun hlt => ne_of_gt hlt)


lemma appendTask_spec (gl : List PriGroup) (t : TaskState)
    (hpw : gl.Pairwise (fun a b => b.pri < a.pri))
    (hmp : ∀ g ∈ gl, ∀ u ∈ g.tasks, u.priority = g.pri)
    (hne : ∀ g ∈ gl, g.tasks ≠ [] ∧ g.cursor = 2) :
    (appendTask gl t).Pairwise (fun a b => b.pri < a.pri) ∧
    (∀ g ∈ appendTask gl t, ∀ u ∈ g.tasks, u.priority = g.pri) ∧
    (∀ g ∈ appendTask gl t, g.tasks ≠ [] ∧ g.cursor = 2) ∧
    List.Perm (flattenTL (appendTask gl t)) (flattenTL gl ++ [t]) ∧
    (∀ p, filterPri p (flattenTL (appendTask gl t)) =
      filterPri p (flattenTL gl) ++ (if t.priority = p then [t] else [])) := by
  cases hadd : addToFirst gl t with
  | some gl1 =>
    have happ : appendTask gl t = sortDesc gl1 := by
      rw [appendTask, hadd]
    obtain ⟨pre, grp, post, he1, _, he3, he4⟩ := addToFirst_some gl t gl1 hadd
    have hpris : gl1.map (fun g => g.pri) = gl.map (fun g => g.pri) := by
      rw [he1, he4]
      simp
    have hpw1 : gl1.Pairwise (fun a b => b.pri < a.pri) := by
      rw [← List.pairwise_map (f := fun g : PriGroup => g.pri)
        (R := fun a b => b < a)] at hpw ⊢
      rw [hpris]
      exact hpw
    have hsid : sortDesc gl1 = gl1 := sortDesc_sorted_id gl1 hpw1
    rw [happ, hsid]
    have hgrpmem : grp ∈ gl := by rw [he1]; simp
    have hmemgl1 : ∀ g ∈ gl1,
        g ∈ gl ∨ g = { grp with tasks := grp.tasks ++ [t] } := by
      intro g hg
      rw [he4] at hg
      rcases List.mem_append.mp hg with hgp | hgc
      · exact Or.inl (by rw [he1]; exact List.mem_append.mpr (Or.inl hgp))
      · rcases List.mem_cons.mp hgc with hge | hgpost
        · exact Or.inr hge
        · refine Or.inl (by rw [he1]
                            exact List.mem_append.mpr (Or.inr (by simp [hgpost])))
    have hflat1 : flattenTL gl1
        = flattenTL pre ++ ((grp.tasks ++ [t]) ++ flattenTL post) := by
      rw [he4, flattenTL_append]
      simp [flattenTL]
    have hflat0 : flattenTL gl
        = flattenTL pre ++ (grp.tasks ++ flattenTL post) := by
      rw [he1, flattenTL_append]
      simp [flattenTL]
    refine ⟨hpw1, ?_, ?_, ?_, ?_⟩
    · intro g hg u hu
      rcases hmemgl1 g hg with hmem | heq
      · exact hmp g hmem u hu
      · rw [heq] at hu ⊢
        simp only at hu ⊢
        rcases List.mem_append.mp hu with hu1 | hu2
        · exact hmp grp hgrpmem u hu1
        · simp at hu2
          rw [hu2, he3]
    · intro g hg
      rcases hmemgl1 g hg with hmem | heq
      · exact hne g hmem
      · rw [heq]
        exact ⟨by simp, (hne grp hgrpmem).2⟩
    · rw [hflat1, hflat0]
      simp only [List.append_assoc]
      exact List.Perm.append_left _ (List.Perm.append_left _
        List.perm_append_comm)
    · intro p
      have hpost : ∀ b ∈ post, b.pri < grp.pri := by
        have hpw' := hpw
        rw [he1] at hpw'
        obtain ⟨-, hpw2, -⟩ := List.pairwise_append.mp hpw'
        exact (List.pairwise_cons.mp hpw2).1
      rw [hflat1, hflat0]
      simp only [filterPri_append]
      by_cases hp : t.priority = p
      · have hC : filterPri p (flattenTL post) = [] := by
          rw [filter_flatten_eq post
            (fun g0 h0 => hmp g0 (by rw [he1]; simp [h0])) p]
          have : post.filter (fun g => decide (g.pri = p)) = [] := by
            apply List.filter_eq_nil_iff.mpr
            intro g0 hg0
            simp only [decide_eq_true_eq]
            have := hpost g0 hg0
            rw [he3, hp] at this
            omega
          rw [this]
          rfl
        have hT : filterPri p [t] = [t] := by
          simp [filterPri, hp]
        rw [hC, hT, if_pos hp]
        simp
      · have hT : filterPri p [t] = [] := by
          simp [filterPri, hp]
        rw [hT, if_neg hp]
        simp
  | none =>
    have happ : appendTask gl t = sortDesc (gl ++ [⟨t.priority, 2, [t]⟩]) := by
      rw [appendTask, hadd]
    set newg : PriGroup := ⟨t.priority, 2, [t]⟩ with hnewg
    have hnone := addToFirst_none gl t hadd
    have hnd : (gl.map (fun g => g.pri)).Nodup := pris_nodup_of_pairwise gl hpw
    have hnd1 : ((gl ++ [newg]).map (fun g => g.pri)).Nodup := by
      rw [List.map_append]
      rw [List.nodup_append]
      refine ⟨hnd, by simp, ?_⟩
      intro x hx
      obtain ⟨g0, hg0, hg0x⟩ := List.mem_map.mp hx
      simp only [List.map_cons, List.map_nil, List.mem_singleton]
      rw [← hg0x]
      show g0.pri ≠ newg.pri
      exact hnone g0 hg0
    have hperm : List.Perm (sortDesc (gl ++ [newg])) (gl ++ [newg]) :=
      sortDesc_perm _
    rw [happ]
    have hmpS : ∀ g ∈ sortDesc (gl ++ [newg]), ∀ u ∈ g.tasks,
        u.priority = g.pri := by
      intro g hg u hu
      have hg1 : g ∈ gl ++ [newg] := hperm.mem_iff.mp hg
      rcases List.mem_append.mp hg1 with hmem | hnewm
      · exact hmp g hmem u hu
      · simp only [List.mem_singleton] at hnewm
        rw [hnewm] at hu ⊢
        simp only [hnewg] at hu
        simp at hu
        rw [hu]
    refine ⟨?_, hmpS, ?_, ?_, ?_⟩
    · have hle := sortDesc_pairwise (gl ++ [newg])
      have hndS : ((sortDesc (gl ++ [newg])).map (fun g => g.pri)).Nodup :=
        ((hperm.map (fun g => g.pri)).nodup_iff).mpr hnd1
      rw [List.Nodup, List.pairwise_map] at hndS
      exact (hle.and hndS).imp (fun h => by omega)
    · intro g hg
      have hg1 : g ∈ gl ++ [newg] := hperm.mem_iff.mp hg
      rcases List.mem_append.mp hg1 with hmem | hnewm
      · exact hne g hmem
      · simp only [List.mem_singleton] at hnewm
        rw [hnewm]
        exact ⟨by simp, rfl⟩
    · have h1 := flatten_perm _ _ hperm
      have h2 : flattenTL (gl ++ [newg]) = flattenTL gl ++ [t] := by
        rw [flattenTL_append]
        simp [flattenTL]
      rw [h2] at h1
      exact h1
    · intro p
      rw [filter_flatten_eq _ hmpS p]
      have hfperm := hperm.filter (fun g => decide (g.pri = p))
      by_cases hp : t.priority = p
      · have hglf : gl.filter (fun g => decide (g.pri = p)) = [] := by
          apply List.filter_eq_nil_iff.mpr
          intro g0 hg0
          simp only [decide_eq_true_eq]
          rw [← hp]
          exact hnone g0 hg0
        have hf1 : (gl ++ [newg]).filter (fun g => decide (g.pri = p))
            = [newg] := by
          rw [List.filter_append, hglf]
          simp [hnewg, hp]
        rw [hf1] at hfperm
        rw [perm_eq_short _ _ hfperm (by simp)]
        rw [filter_flatten_eq _ hmp p, hglf, if_pos hp]
        simp [flattenTL, hnewg]
      · have hf1 : (gl ++ [newg]).filter (fun g => decide (g.pri = p))
            = gl.filter (fun g => decide (g.pri = p)) := by
          rw [List.filter_append]
          have : [newg].filter (fun g => decide (g.pri = p)) = [] := by
            simp [hnewg, hp]
          rw [this]
          simp
        rw [hf1] at hfperm
        rw [perm_eq_short _ _ hfperm (filter_groups_short gl hnd p)]
        rw [filter_flatten_eq _ hmp p, if_neg hp]
        simp

lemma buildTL_go (regs : List TaskState) : ∀ gl : List PriGroup,
    gl.Pairwise (fun a b => b.pri < a.pri) →
    (∀ g ∈ gl, ∀ u ∈ g.tasks, u.priority = g.pri) →
    (∀ g ∈ gl, g.tasks ≠ [] ∧ g.cursor = 2) →
    (regs.foldl appendTask gl).Pairwise (fun a b => b.pri < a.pri) ∧
    (∀ g ∈ regs.foldl appendTask gl, ∀ u ∈ g.tasks, u.priority = g.pri) ∧
    (∀ g ∈ regs.foldl appendTask gl, g.tasks ≠ [] ∧ g.cursor = 2) ∧
    List.Perm (flattenTL (regs.foldl appendTask gl)) (flattenTL gl ++ regs) ∧
    (∀ p, filterPri p (flattenTL (regs.foldl appendTask gl)) =
      filterPri p (flattenTL gl) ++ filterPri p regs) := by
  induction regs with
  | nil =>
    intro gl h1 h2 h3
    exact ⟨h1, h2, h3, by simp, by simp [filterPri]⟩
  | cons r rest ih =>
    intro gl h1 h2 h3
    obtain ⟨s1, s2, s3, s4, s5⟩ := appendTask_spec gl r h1 h2 h3
    obtain ⟨i1, i2, i3, i4, i5⟩ := ih (appendTask gl r) s1 s2 s3
    rw [List.foldl_cons]
    refine ⟨i1, i2, i3, ?_, ?_⟩
    · refine i4.trans ?_
      have := s4.append_right rest
      refine this.trans ?_
      rw [List.append_assoc]
      rfl
    · intro p
      rw [i5 p, s5 p]
      have : filterPri p (r :: rest)
          = (if r.priority = p then [r] else []) ++ filterPri p rest := by
        by_cases hp : r.priority = p <;>
          simp [filterPri, List.filter_cons, hp]
      rw [this, List.append_assoc]

lemma rrTasks_spec (env : Nat → Env) (ts : List TaskState) : ∀ k : Nat,
    (∀ t ∈ ts, WFTask t) →
    ∃ ts', rrTasks env k ts = some (ts', k + ts.length) ∧
      ts'.length = ts.length ∧
      ∀ (i : Nat) (t : TaskState), ts[i]? = some t →
        ∃ r t', TaskState.schedule (env (k + i)) t = some (r, t') ∧
          ts'[i]? = some t' ∧
          t'.gen_count = t.gen_count + (if r then 1 else 0) ∧
          (r = false → t' = t) := by
  induction ts with
  | nil =>
    intro k _
    exact ⟨[], rfl, rfl, by intro i t h; simp at h⟩
  | cons t0 rest ih =>
    intro k hWF
    obtain ⟨r0, t0', hs0, _, _, _, _, hg0, hf0, _, _⟩ :=
      schedule_spec (env k) t0 (hWF t0 (by simp))
    obtain ⟨rest', hrun, hlen, hspec⟩ :=
      ih (k + 1) (fun t ht => hWF t (by simp [ht]))
    refine ⟨t0' :: rest', ?_, by simp [hlen], ?_⟩
    · rw [rrTasks, hs0]
      dsimp only
      rw [hrun]
      dsimp only
      simp only [List.length_cons]
      congr 2
      omega
    · intro i t hi
      cases i with
      | zero =>
        simp only [List.getElem?_cons_zero, Option.some.injEq] at hi
        subst hi
        exact ⟨r0, t0', hs0, by simp, hg0, hf0⟩
      | succ i' =>
        simp only [List.getElem?_cons_succ] at hi
        obtain ⟨r, t', ha, hb, hc, hd⟩ := hspec i' t hi
        refine ⟨r, t', ?_, by simpa using hb, hc, hd⟩
        rw [show k + (i' + 1) = k + 1 + i' from by omega]
        exact ha

lemma rrGroups_spec (env : Nat → Env) (gl : List PriGroup) : ∀ k : Nat,
    (∀ g ∈ gl, ∀ t ∈ g.tasks, WFTask t) →
    ∃ gl', rrGroups env k gl = some (gl', k + numTasks gl) ∧
      (flattenTL gl').length = (flattenTL gl).length ∧
      ∀ (i : Nat) (t : TaskState), (flattenTL gl)[i]? = some t →
        ∃ r t', TaskState.schedule (env (k + i)) t = some (r, t') ∧
          (flattenTL gl')[i]? = some t' ∧
          t'.gen_count = t.gen_count + (if r then 1 else 0) ∧
          (r = false → t' = t) := by
  induction gl with
  | nil =>
    intro k _
    refine ⟨[], ?_, rfl, by intro i t h; simp [flattenTL] at h⟩
    show some ([], k) = some ([], k + numTasks [])
    rfl
  | cons g gs ih =>
    intro k hWF
    obtain ⟨ts', hrun1, hlen1, hspec1⟩ :=
      rrTasks_spec env g.tasks k (hWF g (by simp))
    obtain ⟨gs', hrun2, hlen2, hspec2⟩ :=
      ih (k + g.tasks.length) (fun g0 h0 => hWF g0 (by simp [h0]))
    refine ⟨{ g with tasks := ts' } :: gs', ?_, ?_, ?_⟩
    · rw [rrGroups, hrun1]
      dsimp only
      rw [hrun2]
      dsimp only
      rw [numTasks_cons]
      congr 2
      omega
    · show (ts' ++ flattenTL gs').length = (g.tasks ++ flattenTL gs).length
      simp [hlen1, hlen2]
    · intro i t hi
      have hflat : flattenTL (g :: gs) = g.tasks ++ flattenTL gs := by
        simp [flattenTL]
      have hflat' : flattenTL ({ g with tasks := ts' } :: gs')
          = ts' ++ flattenTL gs' := by
        simp [flattenTL]
      rw [hflat] at hi
      by_cases hcase : i < g.tasks.length
      · rw [List.getElem?_append_left hcase] at hi
        obtain ⟨r, t', ha, hb, hc, hd⟩ := hspec1 i t hi
        refine ⟨r, t', ha, ?_, hc, hd⟩
        rw [hflat', List.getElem?_append_left (by omega)]
        exact hb
      · rw [List.getElem?_append_right (by omega)] at hi
        obtain ⟨r, t', ha, hb, hc, hd⟩ := hspec2 (i - g.tasks.length) t hi
        refine ⟨r, t', ?_, ?_, hc, hd⟩
        · rw [show k + i = k + g.tasks.length + (i - g.tasks.length) from by
            omega]
          exact ha
        · rw [hflat', List.getElem?_append_right (by omega), hlen1]
          exact hb

lemma numTasks_eq_len (gl : List PriGroup) :
    numTasks gl = (flattenTL gl).length := by
  induction gl with
  | nil => rfl
  | cons g gs ih =>
    rw [numTasks_cons,
      show flattenTL (g :: gs) = g.tasks ++ flattenTL gs from by
        simp [flattenTL]]
    simp [ih]

lemma mem_flattenTL {gl : List PriGroup} {g : PriGroup} {t : TaskState}
    (hg : g ∈ gl) (ht : t ∈ g.tasks) : t ∈ flattenTL gl := by
  rw [flattenTL, List.mem_flatMap]
  exact ⟨g, hg, ht⟩

/-- C6: one rr_sched call on a TaskList built by appending `regs` in order
visits the priority groups in strictly descending priority, visits the
tasks of each group in registration order (per priority the dispatch
order is exactly the registration order), calls schedule() on every
registered task exactly once (the env counter advances by exactly
regs.length, one step per schedule call, regardless of readiness), and
each task's generator is resumed exactly when its own schedule call
returned true, being left untouched otherwise. -/
theorem C6_round_robin (env : Nat → Env) (k : Nat) (regs : List TaskState)
    (hWF : ∀ t ∈ regs, WFTask t) :
    (buildTL regs).Pairwise (fun a b => b.pri < a.pri) ∧
    List.Perm (flattenTL (buildTL regs)) regs ∧
    (∀ p, filterPri p (flattenTL (buildTL regs)) = filterPri p regs) ∧
    numTasks (buildTL regs) = regs.length ∧
    ∃ gl' : List PriGroup,
      rrGroups env k (buildTL regs) = some (gl', k + regs.length) ∧
      (flattenTL gl').length = regs.length ∧
      ∀ (i : Nat) (t : TaskState), (flattenTL (buildTL regs))[i]? = some t →
        ∃ r t', TaskState.schedule (env (k + i)) t = some (r, t') ∧
          (flattenTL gl')[i]? = some t' ∧
          t'.gen_count = t.gen_count + (if r then 1 else 0) ∧
          (r = false → t' = t) := by
  obtain ⟨b1, b2, b3, b4, b5⟩ :=
    buildTL_go regs [] (by simp) (by simp) (by simp)
  have hperm : List.Perm (flattenTL (buildTL regs)) regs := by
    have h := b4
    rw [show flattenTL ([] : List PriGroup) = [] from rfl] at h
    simpa [buildTL] using h
  have hfil : ∀ p, filterPri p (flattenTL (buildTL regs)) = filterPri p regs := by
    intro p
    have h := b5 p
    rw [show filterPri p (flattenTL ([] : List PriGroup)) = [] from rfl] at h
    simpa [buildTL] using h
  have hnum : numTasks (buildTL regs) = regs.length := by
    rw [numTasks_eq_len]
    exact hperm.length_eq
  have hWF' : ∀ g ∈ buildTL regs, ∀ t ∈ g.tasks, WFTask t := by
    intro g hg t ht
    exact hWF t (hperm.mem_iff.mp (mem_flattenTL hg ht))
  obtain ⟨gl', hrun, hlen, hspec⟩ := rrGroups_spec env (buildTL regs) k hWF'
  rw [hnum] at hrun
  rw [hperm.length_eq] at hlen
  exact ⟨b1, hperm, hfil, hnum, gl', hrun, hlen, hspec⟩

/-- Three registered tasks, two of them sharing priority 1, used in the
C6 witness. -/
def wRegs : List TaskState :=
  [wTask "X" 1 true, wTask "Y" 2 false, wTask "Z" 1 true]

/-- C6 witness: the theorem at a concrete three-task registration list. -/
theorem C6_round_robin_witness :
    (∀ t ∈ wRegs, WFTask t) ∧
    ((buildTL wRegs).Pairwise (fun a b => b.pri < a.pri) ∧
    List.Perm (flattenTL (buildTL wRegs)) wRegs ∧
    (∀ p, filterPri p (flattenTL (buildTL wRegs)) = filterPri p wRegs) ∧
    numTasks (buildTL wRegs) = wRegs.length ∧
    ∃ gl' : List PriGroup,
      rrGroups (fun _ => ⟨0, 0, 0⟩) 0 (buildTL wRegs) =
        some (gl', 0 + wRegs.length) ∧
      (flattenTL gl').length = wRegs.length ∧
      ∀ (i : Nat) (t : TaskState), (flattenTL (buildTL wRegs))[i]? = some t →
        ∃ r t', TaskState.schedule ((fun _ => (⟨0, 0, 0⟩ : Env)) (0 + i)) t
            = some (r, t') ∧
          (flattenTL gl')[i]? = some t' ∧
          t'.gen_count = t.gen_count + (if r then 1 else 0) ∧
          (r = false → t' = t)) :=
  ⟨by decide, C6_round_robin (fun _ => ⟨0, 0, 0⟩) 0 wRegs (by decide)⟩
